import Mathlib

/-!
Verification of the wordle-helper repository.

The development shallowly embeds the two Python modules:

* `WordleHelper` embeds `wordle_helper.py`: the `GameProgress` constraint
  state, its per-round `update` algorithm (correct spot / wrong spot /
  not in word, followed by the must-include collapse fixed point) and the
  `is_possible_match` predicate.
* `WordleSolver` embeds the parts of `wordle_solver.py` the claims need:
  its `Letter`, `FiveLetterWordProgress.is_possible_match` and
  `get_best_word`.

Modelling conventions: a Python `Letter` object is represented by the
character it stores (its equality and hashing are by that character);
Python `set` is represented by `Finset Char`; Python `str.isalpha` is
modelled by ASCII `Char.isAlpha`; a raised exception is represented by
`none` / `Except.error`.  Python `set` iteration order is unspecified, so
the collapse loop iterates the must-include set in ascending character
order; all proved properties are independent of that choice.
-/

namespace WordleHelper

/-- The five board positions, in the order the `Position` enum declares
them (the order `zip(Position, ...)` iterates). -/
inductive Position where
  | FIRST
  | SECOND
  | THIRD
  | FOURTH
  | FIFTH
deriving DecidableEq

/-- Enum iteration order of `Position`. -/
def Position.list : List Position :=
  [.FIRST, .SECOND, .THIRD, .FOURTH, .FIFTH]

/-- A `Letter` of `wordle_helper.py`: stores the (lowercased) character.
`Letter.init` models `Letter.__init__`, which raises `ValueError` unless
the text is a single alphabetic character, and stores `text.lower()`. -/
structure Letter where
  text : Char
deriving DecidableEq

/-- `Letter.__init__` of `wordle_helper.py`: validate, then lowercase. -/
def Letter.init (text : String) : Option Letter :=
  match text.toList with
  | [c] => if c.isAlpha then some ⟨c.toLower⟩ else none
  | _ => none

/-- `ALL_LETTERS`: the 26 lowercase ascii letters. -/
def ALL_LETTERS : Finset Char :=
  "abcdefghijklmnopqrstuvwxyz".toList.toFinset

/-- A `Word`: five letters, each represented by its character. -/
structure Word where
  first : Char
  second : Char
  third : Char
  fourth : Char
  fifth : Char
deriving DecidableEq

/-- `Word.__iter__`: the five letters in order. -/
def Word.list (w : Word) : List Char :=
  [w.first, w.second, w.third, w.fourth, w.fifth]

/-- The outcome tag of one letter of a guess (`Result` enum). -/
inductive Result where
  | CORRECT_SPOT
  | WRONG_SPOT
  | NOT_IN_WORD
deriving DecidableEq

/-- `map_text_to_result`: outcome-code parsing, `ValueError` as `none`. -/
def map_text_to_result (text : String) : Option Result :=
  if text = "C" then some .CORRECT_SPOT
  else if text = "B" then some .WRONG_SPOT
  else if text = "A" then some .NOT_IN_WORD
  else none

/-- A `LetterGuess`: one guessed letter together with its outcome. -/
structure LetterGuess where
  letter : Char
  result : Result
deriving DecidableEq

/-- A `WordGuess`: five letter guesses, one per position. -/
structure WordGuess where
  first : LetterGuess
  second : LetterGuess
  third : LetterGuess
  fourth : LetterGuess
  fifth : LetterGuess
deriving DecidableEq

/-- `WordGuess.__iter__`: the five letter guesses in order. -/
def WordGuess.list (g : WordGuess) : List LetterGuess :=
  [g.first, g.second, g.third, g.fourth, g.fifth]

/-- A position slot of `GameProgress`: either a confirmed letter or the
set of still-possible letters (`Letter | set[Letter]`). -/
inductive LetterOptions where
  | letter (l : Char)
  | options (s : Finset Char)
deriving DecidableEq

/-- The `GameProgress` constraint state: five slots plus `must_include`. -/
structure GameProgress where
  first : LetterOptions
  second : LetterOptions
  third : LetterOptions
  fourth : LetterOptions
  fifth : LetterOptions
  must_include : Finset Char
deriving DecidableEq

/-- `GameProgress.__init__`: every slot the full alphabet, empty
`must_include`. -/
def GameProgress.init : GameProgress :=
  ⟨.options ALL_LETTERS, .options ALL_LETTERS, .options ALL_LETTERS,
    .options ALL_LETTERS, .options ALL_LETTERS, ∅⟩

/-- The slot at a given position. -/
def GameProgress.slotAt (g : GameProgress) : Position → LetterOptions
  | .FIRST => g.first
  | .SECOND => g.second
  | .THIRD => g.third
  | .FOURTH => g.fourth
  | .FIFTH => g.fifth

/-- Replace the slot at a given position. -/
def GameProgress.setSlot (g : GameProgress) (p : Position) (o : LetterOptions) :
    GameProgress :=
  match p with
  | .FIRST => { g with first := o }
  | .SECOND => { g with second := o }
  | .THIRD => { g with third := o }
  | .FOURTH => { g with fourth := o }
  | .FIFTH => { g with fifth := o }

/-- `GameProgress.__iter__`: the five slots in position order. -/
def GameProgress.slots (g : GameProgress) : List LetterOptions :=
  [g.first, g.second, g.third, g.fourth, g.fifth]

/-- `update_correct_letter`: confirm `letter` at `position` and remove it
from `must_include` if present. -/
def update_correct_letter (g : GameProgress) (position : Position)
    (letter : Char) : GameProgress :=
  let g1 := g.setSlot position (.letter letter)
  { g1 with must_include := g1.must_include.erase letter }

/-- The scan `for options in self: ... if letter == options: return` of
`update_letter_in_wrong_spot`: is some slot confirmed with `letter`? -/
def hasConfirmed (g : GameProgress) (letter : Char) : Bool :=
  g.slots.any fun o =>
    match o with
    | .letter m => m = letter
    | .options _ => false

/-- The tail of `update_letter_in_wrong_spot` after the removal: add
`letter` to `must_include` unless some slot is already confirmed as it. -/
def wrongSpotAdd (g : GameProgress) (letter : Char) : GameProgress :=
  if hasConfirmed g letter then g
  else { g with must_include := insert letter g.must_include }

/-- `update_letter_in_wrong_spot`: if the slot at `position` is still a
set, remove `letter` from it — Python `set.remove`, which raises
`KeyError` (here `none`) when the letter is absent — then add `letter` to
`must_include` unless a slot is confirmed as `letter`. -/
def update_letter_in_wrong_spot (g : GameProgress) (position : Position)
    (letter : Char) : Option GameProgress :=
  match g.slotAt position with
  | .letter _ => some (wrongSpotAdd g letter)
  | .options s =>
    if letter ∈ s then
      some (wrongSpotAdd (g.setSlot position (.options (s.erase letter))) letter)
    else none

/-- `update_letter_is_not_in_word`: remove `letter` from every slot that
is still a set (the removal there is membership-guarded, so total). -/
def update_letter_is_not_in_word (g : GameProgress) (letter : Char) :
    GameProgress :=
  let strip : LetterOptions → LetterOptions := fun o =>
    match o with
    | .letter m => .letter m
    | .options s => .options (s.erase letter)
  { g with
    first := strip g.first
    second := strip g.second
    third := strip g.third
    fourth := strip g.fourth
    fifth := strip g.fifth }

/-- The scan inside `collapse_letter`: walk the position/slot pairs
keeping the single open position whose set holds `letter`; on a second
such position, return early with `none` (no collapse). -/
def find_sole_open_position (letter : Char) :
    List (Position × LetterOptions) → Option Position → Option Position
  | [], valid_position => valid_position
  | (position, options) :: rest, valid_position =>
    match options with
    | .letter _ => find_sole_open_position letter rest valid_position
    | .options opts =>
      if letter ∈ opts then
        match valid_position with
        | some _ => none
        | none => find_sole_open_position letter rest (some position)
      else find_sole_open_position letter rest valid_position

/-- `collapse_letter`: if a must-include letter can fit only one place,
set it. -/
def collapse_letter (g : GameProgress) (letter : Char) : GameProgress :=
  match find_sole_open_position letter (Position.list.zip g.slots) none with
  | some p => update_correct_letter g p letter
  | none => g

/-- Enumerate a finite set of characters in ascending order (computable
by structural recursion, unlike `Finset.sort`).  Python set iteration
order is unspecified; ascending order is the canonical choice here. -/
def sortedOf (s : Finset Char) : List Char :=
  Quotient.liftOn s.val (fun l => List.insertionSort (· ≤ ·) l)
    (fun l1 l2 h =>
      List.eq_of_perm_of_sorted
        (((List.perm_insertionSort _ l1).trans h).trans
          (List.perm_insertionSort _ l2).symm)
        (List.sorted_insertionSort _ l1) (List.sorted_insertionSort _ l2))

/-- One pass of the `while True` loop in `collapse_must_include`: run
`collapse_letter` for every letter of the `must_include` snapshot. -/
def collapse_pass (g : GameProgress) : GameProgress :=
  (sortedOf g.must_include).foldl collapse_letter g

/-- The `while True` loop of `collapse_must_include`, with explicit fuel:
run passes until one leaves `must_include` unchanged. -/
def collapse_loop : Nat → GameProgress → GameProgress
  | 0, g => g
  | fuel + 1, g =>
    let g1 := collapse_pass g
    if g1.must_include = g.must_include then g1 else collapse_loop fuel g1

/-- `collapse_must_include`: iterate passes to the fixed point.  The fuel
`card + 1` always suffices (proved below): each non-final pass strictly
shrinks `must_include`. -/
def collapse_must_include (g : GameProgress) : GameProgress :=
  collapse_loop (g.must_include.card + 1) g

/-- One position of the per-position loop in `GameProgress.update`,
dispatching on the outcome kind. -/
def applyPair (g : GameProgress) : Position × LetterGuess → Option GameProgress
  | (position, lg) =>
    match lg.result with
    | .CORRECT_SPOT => some (update_correct_letter g position lg.letter)
    | .WRONG_SPOT => update_letter_in_wrong_spot g position lg.letter
    | .NOT_IN_WORD => some (update_letter_is_not_in_word g lg.letter)

/-- Run a list of position/letter-guess steps in order, propagating a
raised exception as `none`. -/
def runSteps : GameProgress → List (Position × LetterGuess) → Option GameProgress
  | g, [] => some g
  | g, pair :: rest =>
    match applyPair g pair with
    | some g1 => runSteps g1 rest
    | none => none

/-- `zip(Position, guess)`: the per-round step list in position order. -/
def stepList (guess : WordGuess) : List (Position × LetterGuess) :=
  Position.list.zip guess.list

/-- `GameProgress.update`: fold the five outcomes in first-to-fifth
order, then run the collapse fixed point. -/
def GameProgress.update (g : GameProgress) (guess : WordGuess) :
    Option GameProgress :=
  (runSteps g (stepList guess)).map collapse_must_include

/-- The per-position body of the loop in `is_possible_match`: the word
letter must equal the confirmed letter, or belong to the possible set. -/
def letterMatches (pair : Char × LetterOptions) : Bool :=
  match pair.2 with
  | .letter m => pair.1 = m
  | .options s => pair.1 ∈ s

/-- `GameProgress.is_possible_match`: each of the word's letters must
equal the confirmed letter or belong to the possible set at its position,
and every must-include letter must appear somewhere in the word. -/
def GameProgress.is_possible_match (g : GameProgress) (word : Word) : Bool :=
  (word.list.zip g.slots).all letterMatches
  && ((sortedOf g.must_include).all fun letter => letter ∈ word.list)

/-- `get_matching_words`: the words of the pool that still match, in
input order. -/
def get_matching_words (progress : GameProgress) (words : List Word) :
    List Word :=
  words.filter fun word => progress.is_possible_match word

end WordleHelper

namespace WordleSolver

/-- A `Letter` of `wordle_solver.py`: stores the character exactly as
given (this variant performs no lowercasing). -/
structure Letter where
  text : Char
deriving DecidableEq

/-- `Letter.__init__` of `wordle_solver.py`: validates like the helper
variant but stores `text` unchanged. -/
def Letter.init (text : String) : Option Letter :=
  match text.toList with
  | [c] => if c.isAlpha then some ⟨c⟩ else none
  | _ => none

/-- A `FiveLetterWord`, each letter represented by its character. -/
structure FiveLetterWord where
  first : Char
  second : Char
  third : Char
  fourth : Char
  fifth : Char
deriving DecidableEq

/-- One slot of `FiveLetterWordProgress`: a confirmed letter, or the set
of letters guessed wrong at this position (`set[Letter] | Letter`). -/
inductive LetterKnowledge where
  | letter (l : Char)
  | excluded (s : Finset Char)
deriving DecidableEq

/-- The `FiveLetterWordProgress` state of `wordle_solver.py`. -/
structure FiveLetterWordProgress where
  first : LetterKnowledge
  second : LetterKnowledge
  third : LetterKnowledge
  fourth : LetterKnowledge
  fifth : LetterKnowledge
deriving DecidableEq

/-- One position check of `FiveLetterWordProgress.is_possible_match`. -/
def checkSlot (k : LetterKnowledge) (c : Char) : Bool :=
  match k with
  | .letter m => c = m
  | .excluded s => if c ∈ s then false else true

/-- `FiveLetterWordProgress.is_possible_match`: every position must agree
with the confirmed letter or avoid the excluded set. -/
def FiveLetterWordProgress.is_possible_match (p : FiveLetterWordProgress)
    (w : FiveLetterWord) : Bool :=
  checkSlot p.first w.first && checkSlot p.second w.second &&
    checkSlot p.third w.third && checkSlot p.fourth w.fourth &&
    checkSlot p.fifth w.fifth

/-- `get_best_word`: the first ranked word that is still a possible
match; `ValueError` (`NoCandidateFound` in the design) when the ranked
sequence is exhausted, modelled as `Except.error`. -/
def get_best_word : List FiveLetterWord → FiveLetterWordProgress →
    Except Unit FiveLetterWord
  | [], _ => .error ()
  | word :: rest, progress =>
    if progress.is_possible_match word then .ok word
    else get_best_word rest progress

end WordleSolver

/-! ## Claim C7: candidate selection -/

/-- C7: `get_best_word` returns the first word of the ranked sequence
satisfying `is_possible_match`; the `NoCandidateFound` error (Python
`ValueError`) is raised exactly when the ranked sequence — including an
empty pool — is exhausted without any word matching. -/
theorem c7_get_best_word_first_match
    (ranked : List WordleSolver.FiveLetterWord)
    (progress : WordleSolver.FiveLetterWordProgress) :
    (∀ w, WordleSolver.get_best_word ranked progress = .ok w ↔
      ∃ pre post, ranked = pre ++ w :: post ∧
        progress.is_possible_match w = true ∧
        ∀ v ∈ pre, progress.is_possible_match v = false) ∧
    (WordleSolver.get_best_word ranked progress = .error () ↔
      ∀ w ∈ ranked, progress.is_possible_match w = false) := by
  induction ranked with
  | nil =>
    refine ⟨fun w => ⟨fun h => by simp [WordleSolver.get_best_word] at h,
      fun ⟨pre, post, h, _, _⟩ => absurd h (by simp)⟩, by
        simp [WordleSolver.get_best_word]⟩
  | cons w0 rest ih =>
    by_cases h0 : progress.is_possible_match w0 = true
    · refine ⟨fun w => ⟨fun h => ?_, fun ⟨pre, post, heq, hw, hpre⟩ => ?_⟩, ?_⟩
      · simp only [WordleSolver.get_best_word, h0, if_true] at h
        exact ⟨[], rest, by simpa using (Except.ok.inj h).symm ▸ rfl, by
          cases Except.ok.inj h; exact h0, by simp⟩
      · cases pre with
        | nil =>
          cases List.cons.inj heq |>.1
          simp [WordleSolver.get_best_word, h0]
        | cons p0 pre1 =>
          have hp0 : w0 = p0 := (List.cons.inj heq).1
          have hf := hpre p0 (List.mem_cons_self p0 pre1)
          rw [← hp0] at hf
          exact absurd (h0.symm.trans hf) (by decide)
      · simp [WordleSolver.get_best_word, h0]
    · have h0f : progress.is_possible_match w0 = false := by
        simpa using h0
      have hstep : WordleSolver.get_best_word (w0 :: rest) progress =
          WordleSolver.get_best_word rest progress := by
        simp [WordleSolver.get_best_word, h0f]
      refine ⟨fun w => ⟨fun h => ?_, fun ⟨pre, post, heq, hw, hpre⟩ => ?_⟩, ?_⟩
      · obtain ⟨pre, post, heq, hw, hpre⟩ := (ih.1 w).mp (hstep ▸ h)
        exact ⟨w0 :: pre, post, by simp [heq], hw, by
          intro v hv
          rcases List.mem_cons.mp hv with rfl | hv
          · exact h0f
          · exact hpre v hv⟩
      · cases pre with
        | nil =>
          cases (List.cons.inj heq).1
          exact absurd hw (by simp [h0f])
        | cons p0 pre1 =>
          obtain ⟨rfl, htl⟩ := List.cons.inj heq
          exact hstep ▸ (ih.1 w).mpr ⟨pre1, post, htl, hw, fun v hv =>
            hpre v (List.mem_cons_of_mem _ hv)⟩
      · rw [hstep, ih.2]
        constructor
        · intro hr w hw
          rcases List.mem_cons.mp hw with rfl | hw
          · exact h0f
          · exact hr w hw
        · intro hr w hw
          exact hr w (List.mem_cons_of_mem _ hw)

/-- Witness for C7 at a concrete ranked list: the second word is the
first match, and an all-excluded progress state yields the error. -/
theorem c7_witness :
    WordleSolver.get_best_word
      [⟨'a', 'a', 'a', 'a', 'a'⟩, ⟨'b', 'b', 'b', 'b', 'b'⟩]
      ⟨.letter 'b', .excluded ∅, .excluded ∅, .excluded ∅, .excluded ∅⟩ =
      .ok ⟨'b', 'b', 'b', 'b', 'b'⟩ :=
  ((c7_get_best_word_first_match _ _).1 _).mpr
    ⟨[⟨'a', 'a', 'a', 'a', 'a'⟩], [], by decide, by decide, by decide⟩

/-! ## Claim C8: Letter construction -/

/-- Lowercasing an ascii-alphabetic character yields a lowercase one. -/
theorem isLower_toLower (c : Char) (h : c.isAlpha = true) :
    c.toLower.isLower = true := by
  have hrange :
      (65 ≤ c.toNat ∧ c.toNat ≤ 90) ∨ (97 ≤ c.toNat ∧ c.toNat ≤ 122) := by
    simp only [Char.isAlpha, Char.isUpper, Char.isLower, Bool.or_eq_true,
      Bool.and_eq_true, decide_eq_true_eq] at h
    rcases h with ⟨ha, hb⟩ | ⟨ha, hb⟩
    · exact Or.inl ⟨UInt32.le_toNat_of_le (by decide) ha,
        UInt32.toNat_le_of_le (by decide) hb⟩
    · exact Or.inr ⟨UInt32.le_toNat_of_le (by decide) ha,
        UInt32.toNat_le_of_le (by decide) hb⟩
  obtain ⟨n, hn, rfl⟩ :
      ∃ n, ((65 ≤ n ∧ n ≤ 90) ∨ (97 ≤ n ∧ n ≤ 122)) ∧ Char.ofNat n = c :=
    ⟨c.toNat, hrange, Char.ofNat_toNat c⟩
  rcases hn with ⟨h1, h2⟩ | ⟨h1, h2⟩ <;> interval_cases n <;> decide

/-- `Letter.init` of the helper on a one-character string. -/
theorem helper_init_one (s : String) (c : Char) (h : s.toList = [c]) :
    WordleHelper.Letter.init s =
      if c.isAlpha then some ⟨c.toLower⟩ else none := by
  rw [WordleHelper.Letter.init, h]

/-- `Letter.init` of the solver on a one-character string. -/
theorem solver_init_one (s : String) (c : Char) (h : s.toList = [c]) :
    WordleSolver.Letter.init s = if c.isAlpha then some ⟨c⟩ else none := by
  rw [WordleSolver.Letter.init, h]

/-- `Letter.init` of the helper on an empty string. -/
theorem helper_init_nil (s : String) (h : s.toList = []) :
    WordleHelper.Letter.init s = none := by
  rw [WordleHelper.Letter.init, h]

/-- `Letter.init` of the solver on an empty string. -/
theorem solver_init_nil (s : String) (h : s.toList = []) :
    WordleSolver.Letter.init s = none := by
  rw [WordleSolver.Letter.init, h]

/-- `Letter.init` of the helper on a string of two or more characters. -/
theorem helper_init_long (s : String) (c d : Char) (tl : List Char)
    (h : s.toList = c :: d :: tl) : WordleHelper.Letter.init s = none := by
  rw [WordleHelper.Letter.init, h]

/-- `Letter.init` of the solver on a string of two or more characters. -/
theorem solver_init_long (s : String) (c d : Char) (tl : List Char)
    (h : s.toList = c :: d :: tl) : WordleSolver.Letter.init s = none := by
  rw [WordleSolver.Letter.init, h]

/-- C8 counterexample: the solver-variant `Letter` accepts "A" and stores
the character unchanged, so the constructed letter does not render as a
lowercase character. -/
theorem c8_counterexample :
    WordleSolver.Letter.init "A" = some ⟨'A'⟩ ∧ ('A').isLower = false := by
  decide

/-- C8 (amended): in both variants, `Letter` construction fails unless
the input is exactly one alphabetic character; the helper variant stores
the lowercased character (hence renders lowercase), while the solver
variant stores the character exactly as given. -/
theorem c8_letter_construction_amended :
    (∀ s : String, (WordleHelper.Letter.init s).isSome = true ↔
      ∃ c, s.toList = [c] ∧ c.isAlpha = true) ∧
    (∀ s l, WordleHelper.Letter.init s = some l → l.text.isLower = true) ∧
    (∀ s : String, (WordleSolver.Letter.init s).isSome = true ↔
      ∃ c, s.toList = [c] ∧ c.isAlpha = true) ∧
    (∀ s c, s.toList = [c] → WordleSolver.Letter.init s =
      if c.isAlpha then some ⟨c⟩ else none) := by
  refine ⟨fun s => ?_, fun s l h => ?_, fun s => ?_, fun s c h => ?_⟩
  · rcases hl : s.toList with _ | ⟨c, _ | ⟨d, tl⟩⟩
    · simp [helper_init_nil s hl, hl]
    · by_cases hc : c.isAlpha = true <;>
        simp [helper_init_one s c hl, hl, hc]
    · simp [helper_init_long s c d tl hl, hl]
  · rcases hl : s.toList with _ | ⟨c, _ | ⟨d, tl⟩⟩
    · rw [helper_init_nil s hl] at h
      exact absurd h (by simp)
    · by_cases hc : c.isAlpha = true
      · rw [helper_init_one s c hl, if_pos hc] at h
        cases Option.some.inj h
        exact isLower_toLower c hc
      · rw [helper_init_one s c hl, if_neg hc] at h
        exact absurd h (by simp)
    · rw [helper_init_long s c d tl hl] at h
      exact absurd h (by simp)
  · rcases hl : s.toList with _ | ⟨c, _ | ⟨d, tl⟩⟩
    · simp [solver_init_nil s hl, hl]
    · by_cases hc : c.isAlpha = true <;>
        simp [solver_init_one s c hl, hl, hc]
    · simp [solver_init_long s c d tl hl, hl]
  · exact solver_init_one s c h

/-- Witness for C8 (amended) at concrete inputs: "A" is accepted by both
variants, the helper stores a lowercase letter, and the solver stores the
character unchanged. -/
theorem c8_witness :
    ((WordleHelper.Letter.init "A").isSome = true) ∧
    ((⟨'a'⟩ : WordleHelper.Letter).text.isLower = true) ∧
    ((WordleSolver.Letter.init "A").isSome = true) ∧
    (WordleSolver.Letter.init "A" =
      if ('A').isAlpha then some ⟨'A'⟩ else none) :=
  ⟨(c8_letter_construction_amended.1 "A").mpr ⟨'A', by decide, by decide⟩,
    c8_letter_construction_amended.2.1 "A" ⟨'a'⟩ (by decide),
    (c8_letter_construction_amended.2.2.1 "A").mpr ⟨'A', by decide, by decide⟩,
    c8_letter_construction_amended.2.2.2 "A" 'A' (by decide)⟩

/-! ## Basic lemmas about the helper state -/

namespace WordleHelper

/-- The iteration order of the slots agrees with `slotAt`. -/
theorem slots_eq_map (g : GameProgress) :
    g.slots = Position.list.map g.slotAt := rfl

theorem slotAt_setSlot_self (g : GameProgress) (p : Position)
    (o : LetterOptions) : (g.setSlot p o).slotAt p = o := by
  cases p <;> rfl

theorem slotAt_setSlot_ne (g : GameProgress) (p q : Position)
    (o : LetterOptions) (h : q ≠ p) :
    (g.setSlot p o).slotAt q = g.slotAt q := by
  cases p <;> cases q <;> first | rfl | exact absurd rfl h

theorem mi_setSlot (g : GameProgress) (p : Position) (o : LetterOptions) :
    (g.setSlot p o).must_include = g.must_include := by
  cases p <;> rfl

/-- Two states with the same slots and must-include set are equal. -/
theorem ext_of_slotAt (g1 g2 : GameProgress)
    (hs : ∀ p, g1.slotAt p = g2.slotAt p)
    (hm : g1.must_include = g2.must_include) : g1 = g2 := by
  cases g1
  cases g2
  have a := hs .FIRST
  have b := hs .SECOND
  have c := hs .THIRD
  have d := hs .FOURTH
  have e := hs .FIFTH
  simp only [GameProgress.slotAt] at a b c d e
  simp only at hm
  subst a b c d e hm
  rfl

theorem update_correct_mi (g : GameProgress) (p : Position) (c : Char) :
    (update_correct_letter g p c).must_include = g.must_include.erase c := by
  simp [update_correct_letter, mi_setSlot]

theorem update_correct_slotAt_self (g : GameProgress) (p : Position)
    (c : Char) : (update_correct_letter g p c).slotAt p = .letter c := by
  cases p <;> rfl

theorem update_correct_slotAt_ne (g : GameProgress) (p q : Position)
    (c : Char) (h : q ≠ p) :
    (update_correct_letter g p c).slotAt q = g.slotAt q := by
  cases p <;> cases q <;> first | rfl | exact absurd rfl h

/-- A forall over the five positions, as five conjuncts. -/
theorem position_forall (P : Position → Prop) :
    (∀ p, P p) ↔ P .FIRST ∧ P .SECOND ∧ P .THIRD ∧ P .FOURTH ∧ P .FIFTH := by
  refine ⟨fun h => ⟨h _, h _, h _, h _, h _⟩, fun h p => ?_⟩
  obtain ⟨h1, h2, h3, h4, h5⟩ := h
  cases p <;> assumption

/-- Membership in a pair of the position/slot zip determines the slot. -/
theorem mem_zip_slots (g : GameProgress) (p : Position) (o : LetterOptions) :
    (p, o) ∈ Position.list.zip g.slots ↔ o = g.slotAt p := by
  cases p <;>
    simp [Position.list, GameProgress.slots, GameProgress.slotAt,
      List.zip, List.zipWith, Prod.ext_iff]

/-! ## Lemmas about `sortedOf` -/

theorem mem_sortedOf (s : Finset Char) (c : Char) :
    c ∈ sortedOf s ↔ c ∈ s := by
  rcases s with ⟨m, nd⟩
  induction m using Quotient.inductionOn with
  | h l =>
    show c ∈ List.insertionSort (· ≤ ·) l ↔ _
    rw [(List.perm_insertionSort (· ≤ ·) l).mem_iff]
    rfl

theorem nodup_sortedOf (s : Finset Char) : (sortedOf s).Nodup := by
  rcases s with ⟨m, nd⟩
  induction m using Quotient.inductionOn with
  | h l =>
    exact (List.perm_insertionSort (· ≤ ·) l).symm.nodup_iff.mp nd

end WordleHelper

/-! ## The collapse scan -/

namespace WordleHelper

/-- The open positions among `pairs` whose possible set holds `c`. -/
def openIn (c : Char) (pairs : List (Position × LetterOptions)) :
    List Position :=
  pairs.filterMap fun pair =>
    match pair.2 with
    | .letter _ => none
    | .options s => if c ∈ s then some pair.1 else none

/-- The still-open positions of a state whose possible set holds `c`. -/
def openPositionsWith (g : GameProgress) (c : Char) : List Position :=
  openIn c (Position.list.zip g.slots)

theorem find_sole_from_some (c : Char)
    (pairs : List (Position × LetterOptions)) (q p : Position) :
    find_sole_open_position c pairs (some q) = some p ↔
      openIn c pairs = [] ∧ p = q := by
  induction pairs generalizing q with
  | nil =>
    constructor
    · intro h
      exact ⟨rfl, (Option.some.inj h).symm⟩
    · rintro ⟨h1, rfl⟩
      rfl
  | cons pair rest ih =>
    obtain ⟨pos, o⟩ := pair
    cases o with
    | letter m =>
      rw [find_sole_open_position, ih]
      simp [openIn]
    | options s =>
      by_cases hc : c ∈ s
      · rw [find_sole_open_position]
        simp [hc, openIn]
      · rw [find_sole_open_position]
        simp only [hc, if_false, ih]
        simp [openIn, hc]

theorem find_sole_from_none (c : Char)
    (pairs : List (Position × LetterOptions)) (p : Position) :
    find_sole_open_position c pairs none = some p ↔ openIn c pairs = [p] := by
  induction pairs with
  | nil => simp [find_sole_open_position, openIn]
  | cons pair rest ih =>
    obtain ⟨pos, o⟩ := pair
    cases o with
    | letter m =>
      rw [find_sole_open_position, ih]
      simp [openIn]
    | options s =>
      by_cases hc : c ∈ s
      · rw [find_sole_open_position]
        simp only [hc, if_true, find_sole_from_some]
        simp only [openIn, List.filterMap_cons, hc, if_true]
        constructor
        · rintro ⟨h1, rfl⟩
          rw [h1]
        · intro h
          obtain ⟨h1, h2⟩ := List.cons.inj h
          exact ⟨h2, h1.symm⟩
      · rw [find_sole_open_position]
        simp only [hc, if_false, ih]
        simp [openIn, hc]

/-- Every position produced by `openIn` is open and holds `c`. -/
theorem mem_openIn (c : Char) (pairs : List (Position × LetterOptions))
    (p : Position) :
    p ∈ openIn c pairs → ∃ s, (p, LetterOptions.options s) ∈ pairs ∧ c ∈ s := by
  induction pairs with
  | nil => simp [openIn]
  | cons pair rest ih =>
    obtain ⟨pos, o⟩ := pair
    cases o with
    | letter m =>
      intro h
      rw [openIn, List.filterMap_cons] at h
      obtain ⟨s, hs, hcs⟩ := ih h
      exact ⟨s, List.mem_cons_of_mem _ hs, hcs⟩
    | options s =>
      by_cases hc : c ∈ s
      · intro h
        rw [openIn, List.filterMap_cons] at h
        simp only [hc, if_true] at h
        rcases List.mem_cons.mp h with rfl | h
        · exact ⟨s, List.mem_cons_self _ _, hc⟩
        · obtain ⟨s2, hs2, hcs2⟩ := ih h
          exact ⟨s2, List.mem_cons_of_mem _ hs2, hcs2⟩
      · intro h
        rw [openIn, List.filterMap_cons] at h
        simp only [hc, if_false] at h
        obtain ⟨s2, hs2, hcs2⟩ := ih h
        exact ⟨s2, List.mem_cons_of_mem _ hs2, hcs2⟩

/-- `collapse_letter` either leaves the state unchanged or promotes the
letter at the unique open position containing it. -/
theorem collapse_letter_cases (g : GameProgress) (c : Char) :
    collapse_letter g c = g ∨
    ∃ p s, g.slotAt p = .options s ∧ c ∈ s ∧
      openPositionsWith g c = [p] ∧
      collapse_letter g c = update_correct_letter g p c := by
  rw [collapse_letter]
  cases hf : find_sole_open_position c (Position.list.zip g.slots) none with
  | none => exact Or.inl rfl
  | some p =>
    rw [find_sole_from_none] at hf
    have hp : p ∈ openIn c (Position.list.zip g.slots) := by
      rw [hf]; exact List.mem_cons_self _ _
    obtain ⟨s, hmem, hcs⟩ := mem_openIn c _ p hp
    exact Or.inr ⟨p, s, ((mem_zip_slots g p _).mp hmem).symm, hcs, hf, rfl⟩

theorem collapse_letter_mi_subset (g : GameProgress) (c : Char) :
    (collapse_letter g c).must_include ⊆ g.must_include := by
  rcases collapse_letter_cases g c with h | ⟨p, s, _, _, _, h⟩
  · rw [h]
  · rw [h, update_correct_mi]
    exact Finset.erase_subset c g.must_include

theorem collapse_letter_mem_of_ne (g : GameProgress) (c d : Char)
    (hne : d ≠ c) (hd : d ∈ g.must_include) :
    d ∈ (collapse_letter g c).must_include := by
  rcases collapse_letter_cases g c with h | ⟨p, s, _, _, _, h⟩
  · rw [h]; exact hd
  · rw [h, update_correct_mi]
    exact Finset.mem_erase.mpr ⟨hne, hd⟩

end WordleHelper

/-! ## The collapse fixed-point loop -/

namespace WordleHelper

theorem foldl_collapse_mi_subset (letters : List Char) (g : GameProgress) :
    (letters.foldl collapse_letter g).must_include ⊆ g.must_include := by
  induction letters generalizing g with
  | nil => exact fun c h => h
  | cons c rest ih =>
    rw [List.foldl_cons]
    exact fun d h => collapse_letter_mi_subset g c (ih (collapse_letter g c) h)

/-- If a whole pass leaves `must_include` unchanged, every step of the
pass left the state unchanged. -/
theorem foldl_collapse_eq_self (letters : List Char) (g : GameProgress)
    (hmem : ∀ c ∈ letters, c ∈ g.must_include)
    (heq : (letters.foldl collapse_letter g).must_include = g.must_include) :
    letters.foldl collapse_letter g = g ∧
      ∀ c ∈ letters, collapse_letter g c = g := by
  induction letters generalizing g with
  | nil => exact ⟨rfl, by simp⟩
  | cons c rest ih =>
    rw [List.foldl_cons] at heq ⊢
    have hstep : collapse_letter g c = g := by
      rcases collapse_letter_cases g c with h | ⟨p, s, _, _, _, h⟩
      · exact h
      · exfalso
        have hsub1 : (collapse_letter g c).must_include ⊆ g.must_include :=
          collapse_letter_mi_subset g c
        have hsub2 := foldl_collapse_mi_subset rest (collapse_letter g c)
        have hup : g.must_include ⊆ (collapse_letter g c).must_include := by
          rw [← heq]; exact hsub2
        have hcg : c ∈ g.must_include := hmem c (List.mem_cons_self _ _)
        have : c ∈ (collapse_letter g c).must_include := hup hcg
        rw [h, update_correct_mi] at this
        exact (Finset.mem_erase.mp this).1 rfl
    rw [hstep] at heq ⊢
    obtain ⟨h1, h2⟩ := ih g (fun d hd => hmem d (List.mem_cons_of_mem _ hd)) heq
    refine ⟨h1, fun d hd => ?_⟩
    rcases List.mem_cons.mp hd with rfl | hd
    · exact hstep
    · exact h2 d hd

theorem collapse_pass_mi_subset (g : GameProgress) :
    (collapse_pass g).must_include ⊆ g.must_include :=
  foldl_collapse_mi_subset _ g

/-- A pass that fixes `must_include` fixes the whole state. -/
theorem collapse_pass_eq_self (g : GameProgress)
    (heq : (collapse_pass g).must_include = g.must_include) :
    collapse_pass g = g ∧ ∀ c ∈ g.must_include, collapse_letter g c = g := by
  obtain ⟨h1, h2⟩ := foldl_collapse_eq_self (sortedOf g.must_include) g
    (fun c hc => (mem_sortedOf _ c).mp hc) heq
  exact ⟨h1, fun c hc => h2 c ((mem_sortedOf _ c).mpr hc)⟩

/-- With enough fuel, the loop result is a fixed point of the pass. -/
theorem collapse_loop_fixpoint (fuel : Nat) (g : GameProgress)
    (hfuel : g.must_include.card < fuel) :
    collapse_pass (collapse_loop fuel g) = collapse_loop fuel g := by
  induction fuel generalizing g with
  | zero => exact absurd hfuel (by omega)
  | succ n ih =>
    rw [collapse_loop]
    by_cases h : (collapse_pass g).must_include = g.must_include
    · rw [if_pos h]
      have hself := (collapse_pass_eq_self g h).1
      rw [hself]
      exact hself
    · rw [if_neg h]
      apply ih
      have hsub := collapse_pass_mi_subset g
      have hlt : (collapse_pass g).must_include.card < g.must_include.card :=
        Finset.card_lt_card (lt_of_le_of_ne hsub h)
      omega

/-- Loop results do not depend on the fuel, once it exceeds the size of
the must-include set. -/
theorem collapse_loop_congr (fuel1 fuel2 : Nat) (g : GameProgress)
    (h1 : g.must_include.card < fuel1) (h2 : g.must_include.card < fuel2) :
    collapse_loop fuel1 g = collapse_loop fuel2 g := by
  induction fuel1 generalizing fuel2 g with
  | zero => exact absurd h1 (by omega)
  | succ n ih =>
    cases fuel2 with
    | zero => exact absurd h2 (by omega)
    | succ m =>
      rw [collapse_loop, collapse_loop]
      by_cases h : (collapse_pass g).must_include = g.must_include
      · rw [if_pos h, if_pos h]
      · rw [if_neg h, if_neg h]
        have hsub := collapse_pass_mi_subset g
        have hlt : (collapse_pass g).must_include.card < g.must_include.card :=
          Finset.card_lt_card (lt_of_le_of_ne hsub h)
        exact ih m (collapse_pass g) (by omega) (by omega)

/-- Any property preserved by every `collapse_letter` step on a letter of
the current must-include set holds after the whole collapse. -/
theorem collapse_preserves (Phi : GameProgress → Prop)
    (hstep : ∀ g c, c ∈ g.must_include → Phi g → Phi (collapse_letter g c)) :
    ∀ g, Phi g → Phi (collapse_must_include g) := by
  have hpass : ∀ (letters : List Char) (g : GameProgress), letters.Nodup →
      (∀ c ∈ letters, c ∈ g.must_include) → Phi g →
      Phi (letters.foldl collapse_letter g) := by
    intro letters
    induction letters with
    | nil => exact fun g _ _ h => h
    | cons c rest ih =>
      intro g hnd hmem hphi
      rw [List.foldl_cons]
      have hcg : c ∈ g.must_include := hmem c (List.mem_cons_self _ _)
      refine ih (collapse_letter g c) (List.nodup_cons.mp hnd).2
        (fun d hd => ?_) (hstep g c hcg hphi)
      have hne : d ≠ c := fun hdc =>
        (List.nodup_cons.mp hnd).1 (hdc ▸ hd)
      exact collapse_letter_mem_of_ne g c d hne
        (hmem d (List.mem_cons_of_mem _ hd))
  have hloop : ∀ (fuel : Nat) (g : GameProgress), Phi g →
      Phi (collapse_loop fuel g) := by
    intro fuel
    induction fuel with
    | zero => exact fun g h => h
    | succ n ih =>
      intro g hphi
      rw [collapse_loop]
      have hphi1 : Phi (collapse_pass g) :=
        hpass (sortedOf g.must_include) g (nodup_sortedOf _)
          (fun c hc => (mem_sortedOf _ c).mp hc) hphi
      by_cases h : (collapse_pass g).must_include = g.must_include
      · rw [if_pos h]; exact hphi1
      · rw [if_neg h]; exact ih (collapse_pass g) hphi1
  exact fun g => hloop (g.must_include.card + 1) g

end WordleHelper

/-! ## Characterising `is_possible_match` -/

namespace WordleHelper

/-- The letter of a word at a given position. -/
def letterAt (w : Word) : Position → Char
  | .FIRST => w.first
  | .SECOND => w.second
  | .THIRD => w.third
  | .FOURTH => w.fourth
  | .FIFTH => w.fifth

theorem mem_word_list (w : Word) (c : Char) :
    c ∈ w.list ↔ ∃ p, letterAt w p = c := by
  constructor
  · intro h
    rcases show c = w.first ∨ c = w.second ∨ c = w.third ∨ c = w.fourth ∨
        c = w.fifth by simpa [Word.list] using h with
      h | h | h | h | h
    · exact ⟨.FIRST, h.symm⟩
    · exact ⟨.SECOND, h.symm⟩
    · exact ⟨.THIRD, h.symm⟩
    · exact ⟨.FOURTH, h.symm⟩
    · exact ⟨.FIFTH, h.symm⟩
  · rintro ⟨p, rfl⟩
    cases p <;> simp [Word.list, letterAt]

/-- `is_possible_match` characterised positionally. -/
theorem match_spec (g : GameProgress) (w : Word) :
    g.is_possible_match w = true ↔
      (∀ p, letterMatches (letterAt w p, g.slotAt p) = true) ∧
      ∀ c ∈ g.must_include, c ∈ w.list := by
  rw [GameProgress.is_possible_match, Bool.and_eq_true, position_forall]
  simp [Word.list, GameProgress.slots, GameProgress.slotAt, letterAt,
    List.all_eq_true, mem_sortedOf]

end WordleHelper

/-! ## Claims C1, C9, C3, C10 -/

namespace WordleHelper

theorem collapse_result_fixpoint (g : GameProgress) :
    ∀ c ∈ (collapse_must_include g).must_include,
      collapse_letter (collapse_must_include g) c = collapse_must_include g := by
  have hfix : collapse_pass (collapse_must_include g) = collapse_must_include g :=
    collapse_loop_fixpoint _ g (by omega)
  exact (collapse_pass_eq_self _ (congrArg GameProgress.must_include hfix)).2

/-- If `collapse_letter` leaves the state unchanged, the letter does not
fit exactly one open position. -/
theorem collapse_no_single (g : GameProgress) (c : Char)
    (h : collapse_letter g c = g) :
    (openPositionsWith g c).length ≠ 1 := by
  intro hl
  obtain ⟨p, hp⟩ := List.length_eq_one.mp hl
  have hf : find_sole_open_position c (Position.list.zip g.slots) none = some p :=
    (find_sole_from_none c _ p).mpr hp
  have hcl : collapse_letter g c = update_correct_letter g p c := by
    rw [collapse_letter, hf]
  have hp2 : p ∈ openPositionsWith g c := by
    rw [hp]; exact List.mem_cons_self _ _
  obtain ⟨s, hmem, hcs⟩ :=
    mem_openIn c (Position.list.zip g.slots) p hp2
  have hslot : g.slotAt p = .options s := ((mem_zip_slots g p _).mp hmem).symm
  have hlet : g.slotAt p = .letter c := by
    rw [← h, hcl, update_correct_slotAt_self]
  rw [hslot] at hlet
  exact LetterOptions.noConfusion hlet

end WordleHelper

open WordleHelper in
/-- C1: after `GameProgress.update` returns, the state is a fixed point
of the collapse rule: no letter remaining in `must_include` is an option
of exactly one still-open position, i.e. every must-include letter that
fit exactly one open position has been promoted there and removed. -/
theorem c1_update_collapse_fixed_point (gp : GameProgress)
    (guess : WordGuess) (gp2 : GameProgress)
    (h : gp.update guess = some gp2) :
    ∀ c ∈ gp2.must_include, (openPositionsWith gp2 c).length ≠ 1 := by
  rw [GameProgress.update] at h
  obtain ⟨g1, hg1, hb⟩ := Option.map_eq_some'.mp h
  subst hb
  intro c hc
  exact collapse_no_single _ c (collapse_result_fixpoint g1 c hc)

namespace WordleHelper

/-- A feedback round: 'a' in the wrong spot at the first position, and
letters 'b'..'e' not in the word at the remaining positions. -/
def bugGuess : WordGuess :=
  ⟨⟨'a', .WRONG_SPOT⟩, ⟨'b', .NOT_IN_WORD⟩, ⟨'c', .NOT_IN_WORD⟩,
    ⟨'d', .NOT_IN_WORD⟩, ⟨'e', .NOT_IN_WORD⟩⟩

/-- The alphabet with 'b'..'e' removed. -/
def strip4 : Finset Char :=
  (((ALL_LETTERS.erase 'b').erase 'c').erase 'd').erase 'e'

/-- The state reached from a fresh game by one `bugGuess` round. -/
def afterBug : GameProgress :=
  ⟨.options (strip4.erase 'a'), .options strip4, .options strip4,
    .options strip4, .options strip4, {'a'}⟩

end WordleHelper

open WordleHelper in
/-- Witness for C1: the state after one concrete round keeps 'a' in
`must_include`, and 'a' fits four open positions, not one. -/
theorem c1_witness : (openPositionsWith afterBug 'a').length ≠ 1 :=
  c1_update_collapse_fixed_point GameProgress.init bugGuess afterBug
    (by decide) 'a' (by decide)

open WordleHelper in
/-- C9: the collapse loop terminates.  During a pass letters are only
ever removed from `must_include`, never added, and a fuel of
`|must_include| + 1` passes always reaches the fixed point: any larger
fuel computes the same result as `collapse_must_include`. -/
theorem c9_collapse_terminates :
    (∀ g : GameProgress, (collapse_pass g).must_include ⊆ g.must_include) ∧
    (∀ (g : GameProgress) (fuel : Nat), g.must_include.card + 1 ≤ fuel →
      collapse_loop fuel g = collapse_must_include g) := by
  refine ⟨collapse_pass_mi_subset, fun g fuel h => ?_⟩
  exact collapse_loop_congr fuel (g.must_include.card + 1) g (by omega)
    (by omega)

open WordleHelper in
/-- Witness for C9 at the fresh state: one pass of fuel suffices. -/
theorem c9_witness :
    collapse_loop 1 GameProgress.init = collapse_must_include GameProgress.init :=
  c9_collapse_terminates.2 GameProgress.init 1 (by decide)

open WordleHelper in
/-- C3 fails on the code: `update` can raise mid-algorithm on validated
input.  Applying the same wrong-spot feedback twice makes the second
`set.remove` in `update_letter_in_wrong_spot` raise `KeyError`, because
'a' was already removed from the first position's possible set. -/
theorem c3_update_raises_keyerror :
    GameProgress.init.update bugGuess = some afterBug ∧
    afterBug.update bugGuess = none := by
  decide

open WordleHelper in
/-- C10: a contradictory state — `c` in `must_include` but neither
confirmed anywhere nor an option of any open position — rejects every
word, so filtering yields an empty candidate list rather than an error;
and the collapse pass never promotes or removes such a letter: it stays
in `must_include` and stays unconfirmed. -/
theorem c10_contradictory_state (gp : GameProgress) (c : Char)
    (hmem : c ∈ gp.must_include)
    (hnoc : ∀ p, gp.slotAt p ≠ .letter c)
    (hnos : ∀ p s, gp.slotAt p = .options s → c ∉ s) :
    (∀ w, gp.is_possible_match w = false) ∧
    (∀ words, get_matching_words gp words = []) ∧
    c ∈ (collapse_must_include gp).must_include ∧
    (∀ p, (collapse_must_include gp).slotAt p ≠ .letter c) := by
  have hfalse : ∀ w, gp.is_possible_match w = false := by
    intro w
    by_contra hne
    have htrue : gp.is_possible_match w = true := by
      cases hb : gp.is_possible_match w
      · exact absurd hb hne
      · rfl
    obtain ⟨hpos, hmi⟩ := (match_spec gp w).mp htrue
    obtain ⟨p, hp⟩ := (mem_word_list w c).mp (hmi c hmem)
    have hm := hpos p
    rw [hp] at hm
    cases hsl : gp.slotAt p with
    | letter m =>
      rw [hsl] at hm
      simp only [letterMatches, decide_eq_true_eq] at hm
      exact hnoc p (by rw [hsl, hm])
    | options s =>
      rw [hsl] at hm
      simp only [letterMatches, decide_eq_true_eq] at hm
      exact hnos p s hsl hm
  have hpres :
      c ∈ (collapse_must_include gp).must_include ∧
      (∀ p, (collapse_must_include gp).slotAt p ≠ .letter c) ∧
      (∀ p s, (collapse_must_include gp).slotAt p = .options s → c ∉ s) := by
    refine collapse_preserves (fun g => c ∈ g.must_include ∧
      (∀ p, g.slotAt p ≠ .letter c) ∧
      (∀ p s, g.slotAt p = .options s → c ∉ s)) ?_ gp ⟨hmem, hnoc, hnos⟩
    intro g d hd ⟨h1, h2, h3⟩
    rcases collapse_letter_cases g d with heq | ⟨p, s, hslot, hds, _, heq⟩
    · rw [heq]; exact ⟨h1, h2, h3⟩
    · have hne : d ≠ c := by
        intro hdc
        exact h3 p s hslot (hdc ▸ hds)
      rw [heq]
      refine ⟨?_, fun q => ?_, fun q t hq => ?_⟩
      · rw [update_correct_mi]
        exact Finset.mem_erase.mpr ⟨fun hcd => hne hcd.symm, h1⟩
      · by_cases hqp : q = p
        · subst hqp
          rw [update_correct_slotAt_self]
          intro hlt
          exact hne (LetterOptions.letter.inj hlt)
        · rw [update_correct_slotAt_ne g p q d hqp]
          exact h2 q
      · by_cases hqp : q = p
        · subst hqp
          rw [update_correct_slotAt_self] at hq
          exact LetterOptions.noConfusion hq
        · rw [update_correct_slotAt_ne g p q d hqp] at hq
          exact h3 q t hq
  refine ⟨hfalse, fun words => ?_, hpres.1, hpres.2.1⟩
  rw [get_matching_words]
  rw [List.filter_eq_nil_iff]
  intro w hw
  rw [hfalse w]
  exact Bool.false_ne_true

open WordleHelper in
/-- Witness for C10: the contradictory state with `must_include = {z}`
and 'z' possible nowhere is representable; every hypothesis holds there
and a concrete word pool filters to nothing. -/
theorem c10_witness :
    (∀ w, (GameProgress.mk (.letter 'a') (.letter 'b') (.options ∅)
      (.options ∅) (.options ∅) {'z'}).is_possible_match w = false) ∧
    (∀ words, get_matching_words (GameProgress.mk (.letter 'a')
      (.letter 'b') (.options ∅) (.options ∅) (.options ∅) {'z'}) words = []) ∧
    'z' ∈ (collapse_must_include (GameProgress.mk (.letter 'a')
      (.letter 'b') (.options ∅) (.options ∅) (.options ∅) {'z'})).must_include ∧
    (∀ p, (collapse_must_include (GameProgress.mk (.letter 'a')
      (.letter 'b') (.options ∅) (.options ∅) (.options ∅)
        {'z'})).slotAt p ≠ .letter 'z') :=
  c10_contradictory_state _ 'z' (by decide)
    (by intro p; cases p <;> decide)
    (by intro p s h; cases p <;> simp [GameProgress.slotAt] at h <;>
      rw [← h] <;> decide)

/-! ## Per-round step lemmas -/

namespace WordleHelper

/-- The letter guess of a round at a given position. -/
def letterGuessAt (guess : WordGuess) : Position → LetterGuess
  | .FIRST => guess.first
  | .SECOND => guess.second
  | .THIRD => guess.third
  | .FOURTH => guess.fourth
  | .FIFTH => guess.fifth

theorem mem_position_list (p : Position) : p ∈ Position.list := by
  cases p <;> decide

/-- The step list splits around any chosen position. -/
theorem stepList_decomp (guess : WordGuess) (P : Position) :
    ∃ pre post, stepList guess = pre ++ (P, letterGuessAt guess P) :: post ∧
      P ∉ pre.map Prod.fst ∧ P ∉ post.map Prod.fst := by
  cases P with
  | FIRST =>
    exact ⟨[], [(.SECOND, guess.second), (.THIRD, guess.third),
      (.FOURTH, guess.fourth), (.FIFTH, guess.fifth)], rfl,
      by simp, by simp⟩
  | SECOND =>
    exact ⟨[(.FIRST, guess.first)], [(.THIRD, guess.third),
      (.FOURTH, guess.fourth), (.FIFTH, guess.fifth)], rfl,
      by simp, by simp⟩
  | THIRD =>
    exact ⟨[(.FIRST, guess.first), (.SECOND, guess.second)],
      [(.FOURTH, guess.fourth), (.FIFTH, guess.fifth)], rfl,
      by simp, by simp⟩
  | FOURTH =>
    exact ⟨[(.FIRST, guess.first), (.SECOND, guess.second),
      (.THIRD, guess.third)], [(.FIFTH, guess.fifth)], rfl,
      by simp, by simp⟩
  | FIFTH =>
    exact ⟨[(.FIRST, guess.first), (.SECOND, guess.second),
      (.THIRD, guess.third), (.FOURTH, guess.fourth)], [], rfl,
      by simp, by simp⟩

theorem runSteps_append (g : GameProgress)
    (l1 l2 : List (Position × LetterGuess)) :
    runSteps g (l1 ++ l2) = (runSteps g l1).bind fun g1 => runSteps g1 l2 := by
  induction l1 generalizing g with
  | nil => rfl
  | cons pr rest ih =>
    rw [List.cons_append, runSteps, runSteps]
    cases applyPair g pr with
    | none => rfl
    | some g1 => exact ih g1

/-- A property preserved by the allowed steps survives `runSteps`. -/
theorem runSteps_preserves (Phi : GameProgress → Prop)
    (S : Position × LetterGuess → Prop)
    (hstep : ∀ g pr g1, S pr → applyPair g pr = some g1 → Phi g → Phi g1) :
    ∀ (pairs : List (Position × LetterGuess)) (g g1 : GameProgress),
      (∀ pr ∈ pairs, S pr) → runSteps g pairs = some g1 → Phi g → Phi g1 := by
  intro pairs
  induction pairs with
  | nil =>
    intro g g1 _ h hphi
    cases Option.some.inj h
    exact hphi
  | cons pr rest ih =>
    intro g g1 hS h hphi
    rw [runSteps] at h
    cases happ : applyPair g pr with
    | none => rw [happ] at h; exact Option.noConfusion h
    | some g2 =>
      rw [happ] at h
      exact ih g2 g1 (fun q hq => hS q (List.mem_cons_of_mem _ hq)) h
        (hstep g pr g2 (hS pr (List.mem_cons_self _ _)) happ hphi)

theorem wrongSpotAdd_slotAt (g : GameProgress) (c : Char) (p : Position) :
    (wrongSpotAdd g c).slotAt p = g.slotAt p := by
  rw [wrongSpotAdd]
  split
  · rfl
  · cases p <;> rfl

theorem wrongSpotAdd_mi (g : GameProgress) (c : Char) :
    (wrongSpotAdd g c).must_include =
      if hasConfirmed g c then g.must_include
      else insert c g.must_include := by
  rw [wrongSpotAdd]
  split <;> rfl

theorem notin_slotAt (g : GameProgress) (c : Char) (p : Position) :
    (update_letter_is_not_in_word g c).slotAt p =
      match g.slotAt p with
      | .letter m => .letter m
      | .options s => .options (s.erase c) := by
  cases p <;> rfl

theorem notin_mi (g : GameProgress) (c : Char) :
    (update_letter_is_not_in_word g c).must_include = g.must_include := rfl

theorem hasConfirmed_of_slotAt (g : GameProgress) (p : Position) (c : Char)
    (h : g.slotAt p = .letter c) : hasConfirmed g c = true := by
  rw [hasConfirmed, List.any_eq_true]
  refine ⟨.letter c, ?_, by simp⟩
  rw [slots_eq_map]
  exact List.mem_map.mpr ⟨p, mem_position_list p, h⟩

end WordleHelper

/-! ## Claim C5 -/

namespace WordleHelper

theorem applyPair_correct (g : GameProgress) (Q : Position)
    (lg : LetterGuess) (h : lg.result = .CORRECT_SPOT) :
    applyPair g (Q, lg) = some (update_correct_letter g Q lg.letter) := by
  rw [applyPair, h]

theorem applyPair_wrong (g : GameProgress) (Q : Position)
    (lg : LetterGuess) (h : lg.result = .WRONG_SPOT) :
    applyPair g (Q, lg) = update_letter_in_wrong_spot g Q lg.letter := by
  rw [applyPair, h]

theorem applyPair_notin (g : GameProgress) (Q : Position)
    (lg : LetterGuess) (h : lg.result = .NOT_IN_WORD) :
    applyPair g (Q, lg) = some (update_letter_is_not_in_word g lg.letter) := by
  rw [applyPair, h]

theorem wrong_spot_at_letter (g : GameProgress) (Q : Position) (c m : Char)
    (h : g.slotAt Q = .letter m) :
    update_letter_in_wrong_spot g Q c = some (wrongSpotAdd g c) := by
  rw [update_letter_in_wrong_spot, h]

theorem wrong_spot_at_options (g : GameProgress) (Q : Position) (c : Char)
    (s : Finset Char) (h : g.slotAt Q = .options s) :
    update_letter_in_wrong_spot g Q c =
      if c ∈ s then
        some (wrongSpotAdd (g.setSlot Q (.options (s.erase c))) c)
      else none := by
  rw [update_letter_in_wrong_spot, h]

/-- A confirmed slot with `L` and `L` absent from must-include survives
any later step at another position. -/
theorem confirmed_survives_step (P : Position) (L : Char) :
    ∀ (g : GameProgress) (pr : Position × LetterGuess) (g1 : GameProgress),
      pr.1 ≠ P → applyPair g pr = some g1 →
      (g.slotAt P = .letter L ∧ L ∉ g.must_include) →
      g1.slotAt P = .letter L ∧ L ∉ g1.must_include := by
  rintro g ⟨Q, lg⟩ g1 hQ happ ⟨hslot, hmi⟩
  replace hQ : Q ≠ P := hQ
  cases hres : lg.result with
  | CORRECT_SPOT =>
    rw [applyPair_correct g Q lg hres] at happ
    cases Option.some.inj happ
    constructor
    · rw [update_correct_slotAt_ne g Q P lg.letter (fun h => hQ h.symm)]
      exact hslot
    · rw [update_correct_mi]
      exact fun h => hmi (Finset.mem_of_mem_erase h)
  | WRONG_SPOT =>
    rw [applyPair_wrong g Q lg hres] at happ
    cases hsl : g.slotAt Q with
    | letter m =>
      rw [wrong_spot_at_letter g Q lg.letter m hsl] at happ
      cases Option.some.inj happ
      refine ⟨by rw [wrongSpotAdd_slotAt]; exact hslot, ?_⟩
      rw [wrongSpotAdd_mi]
      split
      · exact hmi
      · next hconf =>
        intro hL
        rcases Finset.mem_insert.mp hL with rfl | hL
        · exact hconf (hasConfirmed_of_slotAt g P lg.letter hslot)
        · exact hmi hL
    | options s =>
      rw [wrong_spot_at_options g Q lg.letter s hsl] at happ
      by_cases hcs : lg.letter ∈ s
      · rw [if_pos hcs] at happ
        cases Option.some.inj happ
        have hslot2 : (g.setSlot Q (.options (s.erase lg.letter))).slotAt P =
            .letter L := by
          rw [slotAt_setSlot_ne g Q P _ (fun h => hQ h.symm)]
          exact hslot
        refine ⟨by rw [wrongSpotAdd_slotAt]; exact hslot2, ?_⟩
        rw [wrongSpotAdd_mi, mi_setSlot]
        split
        · exact hmi
        · next hconf =>
          intro hL
          rcases Finset.mem_insert.mp hL with rfl | hL
          · exact hconf (hasConfirmed_of_slotAt _ P lg.letter hslot2)
          · exact hmi hL
      · rw [if_neg hcs] at happ
        exact Option.noConfusion happ
  | NOT_IN_WORD =>
    rw [applyPair_notin g Q lg hres] at happ
    cases Option.some.inj happ
    refine ⟨?_, hmi⟩
    rw [notin_slotAt, hslot]

/-- A confirmed slot with `L` and `L` absent from must-include survives
the collapse. -/
theorem confirmed_survives_collapse (P : Position) (L : Char)
    (g : GameProgress)
    (h : g.slotAt P = .letter L ∧ L ∉ g.must_include) :
    (collapse_must_include g).slotAt P = .letter L ∧
      L ∉ (collapse_must_include g).must_include := by
  refine collapse_preserves
    (fun g2 => g2.slotAt P = .letter L ∧ L ∉ g2.must_include) ?_ g h
  rintro g2 d hd ⟨hslot, hmi⟩
  rcases collapse_letter_cases g2 d with heq | ⟨p, s, hps, hds, _, heq⟩
  · rw [heq]
    exact ⟨hslot, hmi⟩
  · have hdL : d ≠ L := fun h => hmi (h ▸ hd)
    have hpP : P ≠ p := by
      intro h
      rw [h, hps] at hslot
      exact LetterOptions.noConfusion hslot
    rw [heq]
    constructor
    · rw [update_correct_slotAt_ne g2 p P d hpP]
      exact hslot
    · rw [update_correct_mi]
      exact fun h => hmi (Finset.mem_of_mem_erase h)

end WordleHelper

open WordleHelper in
/-- C5: for every state and every `WordGuess` whose outcome at position
`P` is Correct-Spot with letter `L`, after `update` returns the state
reports `P` confirmed as `L` and `L` is absent from `must_include`. -/
theorem c5_correct_spot (gp : GameProgress) (guess : WordGuess)
    (P : Position) (L : Char) (gp2 : GameProgress)
    (hres : (letterGuessAt guess P).result = .CORRECT_SPOT)
    (hlet : (letterGuessAt guess P).letter = L)
    (hupd : gp.update guess = some gp2) :
    gp2.slotAt P = .letter L ∧ L ∉ gp2.must_include := by
  rw [GameProgress.update] at hupd
  obtain ⟨g1, hrun, hb⟩ := Option.map_eq_some'.mp hupd
  subst hb
  obtain ⟨pre, post, hsplit, hpre, hpost⟩ := stepList_decomp guess P
  rw [hsplit, runSteps_append] at hrun
  obtain ⟨gmid, hmid, hrest⟩ := Option.bind_eq_some.mp hrun
  rw [runSteps] at hrest
  cases happ : applyPair gmid (P, letterGuessAt guess P) with
  | none => rw [happ] at hrest; exact Option.noConfusion hrest
  | some gnext =>
    rw [happ] at hrest
    have hgnext : gnext = update_correct_letter gmid P L := by
      rw [applyPair, hres, hlet] at happ
      exact (Option.some.inj happ).symm
    have hpsi : gnext.slotAt P = .letter L ∧ L ∉ gnext.must_include := by
      rw [hgnext]
      exact ⟨update_correct_slotAt_self gmid P L, by
        rw [update_correct_mi]; exact Finset.not_mem_erase L _⟩
    have hpsi1 : g1.slotAt P = .letter L ∧ L ∉ g1.must_include := by
      refine runSteps_preserves _ (fun pr => pr.1 ≠ P)
        (confirmed_survives_step P L) post gnext g1 ?_ hrest hpsi
      intro pr hpr h
      exact hpost (h ▸ List.mem_map_of_mem Prod.fst hpr)
    exact confirmed_survives_collapse P L g1 hpsi1

namespace WordleHelper

/-- A feedback round confirming 'a' at the first position. -/
def correctGuess : WordGuess :=
  ⟨⟨'a', .CORRECT_SPOT⟩, ⟨'b', .NOT_IN_WORD⟩, ⟨'c', .NOT_IN_WORD⟩,
    ⟨'d', .NOT_IN_WORD⟩, ⟨'e', .NOT_IN_WORD⟩⟩

/-- The state reached from a fresh game by one `correctGuess` round. -/
def afterCorrect : GameProgress :=
  ⟨.letter 'a', .options strip4, .options strip4, .options strip4,
    .options strip4, ∅⟩

end WordleHelper

open WordleHelper in
/-- Witness for C5 at a concrete round confirming 'a' first. -/
theorem c5_witness :
    afterCorrect.slotAt .FIRST = .letter 'a' ∧
      'a' ∉ afterCorrect.must_include :=
  c5_correct_spot GameProgress.init correctGuess .FIRST 'a' afterCorrect
    (by decide) (by decide) (by decide)

/-! ## Claim C6 -/

namespace WordleHelper

/-- Letter `L` can no longer occupy position `P`: the position is open
and excludes `L`, or is confirmed with a different letter. -/
def excludedAt (g : GameProgress) (P : Position) (L : Char) : Prop :=
  match g.slotAt P with
  | .options s => L ∉ s
  | .letter m => m ≠ L

theorem excludedAt_congr (g g1 : GameProgress) (P : Position) (L : Char)
    (h : g1.slotAt P = g.slotAt P) (he : excludedAt g P L) :
    excludedAt g1 P L := by
  rw [excludedAt, h]
  exact he

theorem hasConfirmed_iff (g : GameProgress) (c : Char) :
    hasConfirmed g c = true ↔ ∃ p, g.slotAt p = .letter c := by
  constructor
  · rw [hasConfirmed, List.any_eq_true]
    rintro ⟨o, ho, hoc⟩
    rw [slots_eq_map] at ho
    obtain ⟨p, _, rfl⟩ := List.mem_map.mp ho
    cases hs : g.slotAt p with
    | letter m =>
      rw [hs] at hoc
      simp only [decide_eq_true_eq] at hoc
      exact ⟨p, by rw [hs, hoc]⟩
    | options s =>
      rw [hs] at hoc
      exact Bool.noConfusion hoc
  · rintro ⟨p, hp⟩
    exact hasConfirmed_of_slotAt g p c hp

/-- Effect of one step at a position other than `P` on the C6 facts. -/
theorem c6_step (P : Position) (L : Char) (g g1 : GameProgress)
    (pr : Position × LetterGuess) (hQ : pr.1 ≠ P)
    (happ : applyPair g pr = some g1) :
    (excludedAt g P L → excludedAt g1 P L) ∧
    (L ∈ g.must_include →
      L ∈ g1.must_include ∨ g1.slotAt pr.1 = .letter L) ∧
    (∀ q, q ≠ pr.1 → g.slotAt q = .letter L → g1.slotAt q = .letter L) := by
  obtain ⟨Q, lg⟩ := pr
  replace hQ : Q ≠ P := hQ
  cases hres : lg.result with
  | CORRECT_SPOT =>
    rw [applyPair_correct g Q lg hres] at happ
    cases Option.some.inj happ
    refine ⟨fun he => ?_, fun hmi => ?_, fun q hq hql => ?_⟩
    · exact excludedAt_congr _ _ _ _
        (update_correct_slotAt_ne g Q P lg.letter hQ.symm) he
    · by_cases hML : lg.letter = L
      · exact Or.inr (by rw [update_correct_slotAt_self, hML])
      · exact Or.inl (by
          rw [update_correct_mi]
          exact Finset.mem_erase.mpr ⟨fun h => hML (h.symm), hmi⟩)
    · rw [update_correct_slotAt_ne g Q q lg.letter hq]
      exact hql
  | WRONG_SPOT =>
    rw [applyPair_wrong g Q lg hres] at happ
    cases hsl : g.slotAt Q with
    | letter m =>
      rw [wrong_spot_at_letter g Q lg.letter m hsl] at happ
      cases Option.some.inj happ
      refine ⟨fun he => ?_, fun hmi => ?_, fun q hq hql => ?_⟩
      · exact excludedAt_congr _ _ _ _ (wrongSpotAdd_slotAt g lg.letter P) he
      · refine Or.inl ?_
        rw [wrongSpotAdd_mi]
        split
        · exact hmi
        · exact Finset.mem_insert_of_mem hmi
      · rw [wrongSpotAdd_slotAt]
        exact hql
    | options s =>
      rw [wrong_spot_at_options g Q lg.letter s hsl] at happ
      by_cases hcs : lg.letter ∈ s
      · rw [if_pos hcs] at happ
        cases Option.some.inj happ
        refine ⟨fun he => ?_, fun hmi => ?_, fun q hq hql => ?_⟩
        · refine excludedAt_congr _ _ _ _ ?_ he
          rw [wrongSpotAdd_slotAt, slotAt_setSlot_ne g Q P _ hQ.symm]
        · refine Or.inl ?_
          rw [wrongSpotAdd_mi, mi_setSlot]
          split
          · exact hmi
          · exact Finset.mem_insert_of_mem hmi
        · by_cases hqQ : q = Q
          · subst hqQ
            rw [hsl] at hql
            exact LetterOptions.noConfusion hql
          · rw [wrongSpotAdd_slotAt, slotAt_setSlot_ne g Q q _ hqQ]
            exact hql
      · rw [if_neg hcs] at happ
        exact Option.noConfusion happ
  | NOT_IN_WORD =>
    rw [applyPair_notin g Q lg hres] at happ
    cases Option.some.inj happ
    refine ⟨fun he => ?_, fun hmi => ?_, fun q hq hql => ?_⟩
    · rw [excludedAt, notin_slotAt]
      rw [excludedAt] at he
      cases hs : g.slotAt P with
      | letter m =>
        rw [hs] at he
        exact he
      | options s =>
        rw [hs] at he
        exact fun h => he (Finset.mem_of_mem_erase h)
    · exact Or.inl hmi
    · rw [notin_slotAt, hql]

/-- Running the remaining steps of the round preserves the C6 facts. -/
theorem c6_post_run (P : Position) (L : Char) :
    ∀ (post : List (Position × LetterGuess)) (g g1 : GameProgress),
      (post.map Prod.fst).Nodup →
      P ∉ post.map Prod.fst →
      runSteps g post = some g1 →
      ((L ∈ g.must_include ∨
        ∃ q, g.slotAt q = .letter L ∧ q ∉ post.map Prod.fst) ∧
        excludedAt g P L) →
      ((L ∈ g1.must_include ∨ ∃ q, g1.slotAt q = .letter L) ∧
        excludedAt g1 P L) := by
  intro post
  induction post with
  | nil =>
    intro g g1 _ _ hrun ⟨h1, h2⟩
    cases Option.some.inj hrun
    refine ⟨?_, h2⟩
    rcases h1 with h1 | ⟨q, hq, _⟩
    · exact Or.inl h1
    · exact Or.inr ⟨q, hq⟩
  | cons pr rest ih =>
    intro g g1 hnd hP hrun ⟨h1, h2⟩
    rw [List.map_cons] at hnd hP
    have hndr := (List.nodup_cons.mp hnd).2
    have hheadr := (List.nodup_cons.mp hnd).1
    have hQP : pr.1 ≠ P := fun h => hP (h ▸ List.mem_cons_self _ _)
    have hPr : P ∉ rest.map Prod.fst := fun h => hP (List.mem_cons_of_mem _ h)
    rw [runSteps] at hrun
    cases happ : applyPair g pr with
    | none => rw [happ] at hrun; exact Option.noConfusion hrun
    | some g2 =>
      rw [happ] at hrun
      obtain ⟨hex, hmi, hslots⟩ := c6_step P L g g2 pr hQP happ
      refine ih g2 g1 hndr hPr hrun ⟨?_, hex h2⟩
      rcases h1 with h1 | ⟨q, hq, hqnot⟩
      · rcases hmi h1 with h | h
        · exact Or.inl h
        · exact Or.inr ⟨pr.1, h, hheadr⟩
      · rw [List.map_cons] at hqnot
        have hqne : q ≠ pr.1 := fun h => hqnot (h ▸ List.mem_cons_self _ _)
        exact Or.inr ⟨q, hslots q hqne hq,
          fun h => hqnot (List.mem_cons_of_mem _ h)⟩

end WordleHelper

namespace WordleHelper

/-- A step can only create a confirmed slot at its own position. -/
theorem step_confirmed_origin (g g1 : GameProgress)
    (pr : Position × LetterGuess) (happ : applyPair g pr = some g1)
    (q : Position) (c : Char) (h1 : g1.slotAt q = .letter c) :
    g.slotAt q = .letter c ∨ q = pr.1 := by
  obtain ⟨Q, lg⟩ := pr
  by_cases hq : q = Q
  · exact Or.inr hq
  refine Or.inl ?_
  cases hres : lg.result with
  | CORRECT_SPOT =>
    rw [applyPair_correct g Q lg hres] at happ
    cases Option.some.inj happ
    rw [update_correct_slotAt_ne g Q q lg.letter hq] at h1
    exact h1
  | WRONG_SPOT =>
    rw [applyPair_wrong g Q lg hres] at happ
    cases hsl : g.slotAt Q with
    | letter m =>
      rw [wrong_spot_at_letter g Q lg.letter m hsl] at happ
      cases Option.some.inj happ
      rw [wrongSpotAdd_slotAt] at h1
      exact h1
    | options s =>
      rw [wrong_spot_at_options g Q lg.letter s hsl] at happ
      by_cases hcs : lg.letter ∈ s
      · rw [if_pos hcs] at happ
        cases Option.some.inj happ
        rw [wrongSpotAdd_slotAt, slotAt_setSlot_ne g Q q _ hq] at h1
        exact h1
      · rw [if_neg hcs] at happ
        exact Option.noConfusion happ
  | NOT_IN_WORD =>
    rw [applyPair_notin g Q lg hres] at happ
    cases Option.some.inj happ
    rw [notin_slotAt] at h1
    cases hs : g.slotAt q with
    | letter m =>
      rw [hs] at h1
      exact h1
    | options s =>
      rw [hs] at h1
      exact absurd h1 (fun h => LetterOptions.noConfusion h)

/-- The collapse preserves the C6 facts. -/
theorem c6_collapse (P : Position) (L : Char) (g : GameProgress)
    (h : (L ∈ g.must_include ∨ ∃ q, g.slotAt q = .letter L) ∧
      excludedAt g P L) :
    (L ∈ (collapse_must_include g).must_include ∨
      ∃ q, (collapse_must_include g).slotAt q = .letter L) ∧
    excludedAt (collapse_must_include g) P L := by
  refine collapse_preserves (fun g2 =>
    (L ∈ g2.must_include ∨ ∃ q, g2.slotAt q = .letter L) ∧
      excludedAt g2 P L) ?_ g h
  rintro g2 d hd ⟨h1, h2⟩
  rcases collapse_letter_cases g2 d with heq | ⟨p, s, hps, hds, _, heq⟩
  · rw [heq]; exact ⟨h1, h2⟩
  · rw [heq]
    constructor
    · rcases h1 with h1 | ⟨q, hq⟩
      · by_cases hdL : d = L
        · exact Or.inr ⟨p, by rw [update_correct_slotAt_self, hdL]⟩
        · refine Or.inl ?_
          rw [update_correct_mi]
          exact Finset.mem_erase.mpr ⟨fun h => hdL h.symm, h1⟩
      · have hqp : q ≠ p := by
          intro h
          rw [h, hps] at hq
          exact LetterOptions.noConfusion hq
        exact Or.inr ⟨q, by
          rw [update_correct_slotAt_ne g2 p q d hqp]; exact hq⟩
    · by_cases hPp : P = p
      · subst hPp
        rw [excludedAt, update_correct_slotAt_self]
        rw [excludedAt, hps] at h2
        exact fun h => h2 (h ▸ hds)
      · exact excludedAt_congr _ _ _ _
          (update_correct_slotAt_ne g2 p P d hPp) h2

end WordleHelper

open WordleHelper in
/-- C6 (amended): if no position of the starting state is confirmed with
`L` and the round has Wrong-Spot `L` at `P`, then after a normal return
of `update` either `L` is in `must_include` or `L` has become confirmed
at some position (the round may also contain a Correct-Spot `L`, or the
collapse may promote `L`); and `L` can no longer occupy position `P`. -/
theorem c6_wrong_spot_amended (gp : GameProgress) (guess : WordGuess)
    (P : Position) (L : Char) (gp2 : GameProgress)
    (hnoc : ∀ p, gp.slotAt p ≠ .letter L)
    (hres : (letterGuessAt guess P).result = .WRONG_SPOT)
    (hlet : (letterGuessAt guess P).letter = L)
    (hupd : gp.update guess = some gp2) :
    (L ∈ gp2.must_include ∨ ∃ p, gp2.slotAt p = .letter L) ∧
    excludedAt gp2 P L := by
  rw [GameProgress.update] at hupd
  obtain ⟨g1, hrun, hb⟩ := Option.map_eq_some'.mp hupd
  subst hb
  obtain ⟨pre, post, hsplit, hpre, hpost⟩ := stepList_decomp guess P
  have hnodup :
      ((pre ++ (P, letterGuessAt guess P) :: post).map Prod.fst).Nodup := by
    rw [← hsplit]
    show Position.list.Nodup
    decide
  rw [List.map_append, List.map_cons] at hnodup
  obtain ⟨hnd1, hnd2, hdisj⟩ := List.nodup_append.mp hnodup
  have hndpost : (post.map Prod.fst).Nodup := (List.nodup_cons.mp hnd2).2
  rw [hsplit, runSteps_append] at hrun
  obtain ⟨gmid, hmid, hrest⟩ := Option.bind_eq_some.mp hrun
  have hphi0 : ∀ q, gmid.slotAt q = .letter L →
      q ∉ (P :: post.map Prod.fst) := by
    refine runSteps_preserves
      (fun g => ∀ q, g.slotAt q = .letter L → q ∉ (P :: post.map Prod.fst))
      (fun pr => pr.1 ∉ (P :: post.map Prod.fst)) ?_ pre gp gmid ?_ hmid ?_
    · intro g pr g2 hS happ hphi q hq
      rcases step_confirmed_origin g g2 pr happ q L hq with h | rfl
      · exact hphi q h
      · exact hS
    · intro pr hpr
      exact hdisj (List.mem_map_of_mem Prod.fst hpr)
    · intro q hq
      exact absurd hq (hnoc q)
  rw [runSteps] at hrest
  cases happ : applyPair gmid (P, letterGuessAt guess P) with
  | none => rw [happ] at hrest; exact Option.noConfusion hrest
  | some gnext =>
    rw [happ] at hrest
    rw [applyPair_wrong gmid P _ hres, hlet] at happ
    have hfacts : (L ∈ gnext.must_include ∨
        ∃ q, gnext.slotAt q = .letter L ∧ q ∉ post.map Prod.fst) ∧
        excludedAt gnext P L := by
      cases hsl : gmid.slotAt P with
      | letter m =>
        rw [wrong_spot_at_letter gmid P L m hsl] at happ
        cases Option.some.inj happ
        have hmL : m ≠ L := by
          intro h
          exact hphi0 P (by rw [hsl, h]) (List.mem_cons_self _ _)
        constructor
        · rw [wrongSpotAdd_mi]
          split
          · next hconf =>
            obtain ⟨q, hq⟩ := (hasConfirmed_iff gmid L).mp hconf
            have hqnot := hphi0 q hq
            refine Or.inr ⟨q, ?_, fun h => hqnot (List.mem_cons_of_mem _ h)⟩
            rw [wrongSpotAdd_slotAt]
            exact hq
          · exact Or.inl (Finset.mem_insert_self L _)
        · rw [excludedAt, wrongSpotAdd_slotAt, hsl]
          exact hmL
      | options s =>
        rw [wrong_spot_at_options gmid P L s hsl] at happ
        by_cases hcs : L ∈ s
        · rw [if_pos hcs] at happ
          cases Option.some.inj happ
          constructor
          · rw [wrongSpotAdd_mi, mi_setSlot]
            split
            · next hconf =>
              obtain ⟨q, hq⟩ := (hasConfirmed_iff _ L).mp hconf
              have hqP : q ≠ P := by
                intro h
                rw [h, slotAt_setSlot_self] at hq
                exact LetterOptions.noConfusion hq
              rw [slotAt_setSlot_ne gmid P q _ hqP] at hq
              have hqnot := hphi0 q hq
              refine Or.inr ⟨q, ?_, fun h => hqnot (List.mem_cons_of_mem _ h)⟩
              rw [wrongSpotAdd_slotAt, slotAt_setSlot_ne gmid P q _ hqP]
              exact hq
            · exact Or.inl (Finset.mem_insert_self L _)
          · rw [excludedAt, wrongSpotAdd_slotAt, slotAt_setSlot_self]
            exact fun h => (Finset.mem_erase.mp h).1 rfl
        · rw [if_neg hcs] at happ
          exact Option.noConfusion happ
    exact c6_collapse P L g1
      (c6_post_run P L post gnext g1 hndpost hpost hrest hfacts)

namespace WordleHelper

/-- A round with Wrong-Spot 'a' first and Correct-Spot 'a' second. -/
def mixedGuess : WordGuess :=
  ⟨⟨'a', .WRONG_SPOT⟩, ⟨'a', .CORRECT_SPOT⟩, ⟨'b', .NOT_IN_WORD⟩,
    ⟨'c', .NOT_IN_WORD⟩, ⟨'d', .NOT_IN_WORD⟩⟩

/-- The alphabet with 'b', 'c', 'd' removed. -/
def strip3 : Finset Char :=
  ((ALL_LETTERS.erase 'b').erase 'c').erase 'd'

/-- The state reached from a fresh game by one `mixedGuess` round. -/
def afterMixed : GameProgress :=
  ⟨.options (strip3.erase 'a'), .letter 'a', .options strip3,
    .options strip3, .options strip3, ∅⟩

end WordleHelper

open WordleHelper in
/-- C6 counterexample: from a fresh state (no position confirmed 'a'), a
round with Wrong-Spot 'a' at the first position and Correct-Spot 'a' at
the second leaves 'a' absent from `must_include`, contradicting the
claim that 'a' is a member of `must_include` after the update. -/
theorem c6_counterexample :
    (∀ p, GameProgress.init.slotAt p ≠ .letter 'a') ∧
    letterGuessAt mixedGuess .FIRST = ⟨'a', .WRONG_SPOT⟩ ∧
    GameProgress.init.update mixedGuess = some afterMixed ∧
    'a' ∉ afterMixed.must_include := by
  refine ⟨fun p => ?_, by decide, by decide, by decide⟩
  cases p <;> decide

open WordleHelper in
/-- Witness for C6 (amended) at the `mixedGuess` round: 'a' became
confirmed at the second position, and is excluded from the first. -/
theorem c6_witness :
    ('a' ∈ afterMixed.must_include ∨
      ∃ p, afterMixed.slotAt p = .letter 'a') ∧
    excludedAt afterMixed .FIRST 'a' :=
  c6_wrong_spot_amended GameProgress.init mixedGuess .FIRST 'a' afterMixed
    (by intro p; cases p <;> decide) (by decide) (by decide) (by decide)

/-! ## Claim C4: consistent feedback and monotonicity -/

namespace WordleHelper

/-- One outcome is consistent with target word `T`: Correct-Spot reports
the target letter, Wrong-Spot a letter of the target at a different
position, Not-In-Word a letter absent from the target (the simplified,
duplicate-free feedback rule the helper implements). -/
def stepOK (T : Word) (pr : Position × LetterGuess) : Bool :=
  match pr.2.result with
  | .CORRECT_SPOT => decide (pr.2.letter = letterAt T pr.1)
  | .WRONG_SPOT =>
    decide (pr.2.letter ∈ T.list) && decide (pr.2.letter ≠ letterAt T pr.1)
  | .NOT_IN_WORD => decide (pr.2.letter ∉ T.list)

/-- A whole round of feedback consistent with target `T`. -/
def ConsistentWith (T : Word) (guess : WordGuess) : Prop :=
  ∀ pr ∈ stepList guess, stepOK T pr = true

instance decConsistentWith (T : Word) (guess : WordGuess) :
    Decidable (ConsistentWith T guess) :=
  List.decidableBAll (fun pr => stepOK T pr = true) (stepList guess)

/-- One slot of knowledge is sound for target `T`: a confirmed slot
holds the target letter, an open slot still offers it. -/
def slotSound (T : Word) (p : Position) (o : LetterOptions) : Prop :=
  match o with
  | .letter m => m = letterAt T p
  | .options s => letterAt T p ∈ s

/-- The soundness invariant of a state for target `T`: every slot is
sound and every must-include letter names a target letter at some still
open position. -/
def SoundState (T : Word) (g : GameProgress) : Prop :=
  (∀ p, slotSound T p (g.slotAt p)) ∧
  (∀ c ∈ g.must_include, ∃ p s, g.slotAt p = .options s ∧ letterAt T p = c)

/-- The states reachable from a fresh game by successful updates with
feedback consistent with target `T`. -/
inductive Reachable (T : Word) : GameProgress → Prop where
  | init : Reachable T GameProgress.init
  | step {g g1 : GameProgress} {guess : WordGuess} : Reachable T g →
      ConsistentWith T guess → g.update guess = some g1 → Reachable T g1

theorem stepOK_correct (T : Word) (pr : Position × LetterGuess)
    (h : pr.2.result = .CORRECT_SPOT) :
    stepOK T pr = true ↔ pr.2.letter = letterAt T pr.1 := by
  rw [stepOK, h]
  simp

theorem stepOK_wrong (T : Word) (pr : Position × LetterGuess)
    (h : pr.2.result = .WRONG_SPOT) :
    stepOK T pr = true ↔
      pr.2.letter ∈ T.list ∧ pr.2.letter ≠ letterAt T pr.1 := by
  rw [stepOK, h]
  simp

theorem stepOK_notin (T : Word) (pr : Position × LetterGuess)
    (h : pr.2.result = .NOT_IN_WORD) :
    stepOK T pr = true ↔ pr.2.letter ∉ T.list := by
  rw [stepOK, h]
  simp

theorem mem_openPositionsWith (g : GameProgress) (d : Char) (q : Position)
    (s : Finset Char) (hq : g.slotAt q = .options s) (hd : d ∈ s) :
    q ∈ openPositionsWith g d := by
  rw [openPositionsWith, openIn, List.mem_filterMap]
  exact ⟨(q, .options s), (mem_zip_slots g q _).mpr hq.symm, by simp [hd]⟩

end WordleHelper

namespace WordleHelper

theorem letterMatches_letter (c m : Char) :
    letterMatches (c, .letter m) = true ↔ c = m := by
  simp [letterMatches]

theorem letterMatches_options (c : Char) (s : Finset Char) :
    letterMatches (c, .options s) = true ↔ c ∈ s := by
  simp [letterMatches]

/-- One consistent step keeps the state sound and can only narrow the
set of matching words. -/
theorem sound_mono_step (T : Word) (g g1 : GameProgress)
    (pr : Position × LetterGuess) (hok : stepOK T pr = true)
    (happ : applyPair g pr = some g1) (hs : SoundState T g) :
    SoundState T g1 ∧
      ∀ w, g1.is_possible_match w = true → g.is_possible_match w = true := by
  obtain ⟨Q, lg⟩ := pr
  obtain ⟨hs1, hs2⟩ := hs
  cases hres : lg.result with
  | CORRECT_SPOT =>
    rw [applyPair_correct g Q lg hres] at happ
    cases Option.some.inj happ
    have hM : lg.letter = letterAt T Q := (stepOK_correct T (Q, lg) hres).mp hok
    refine ⟨⟨fun p => ?_, fun c hc => ?_⟩, fun w hw => ?_⟩
    · by_cases hp : p = Q
      · subst hp
        rw [update_correct_slotAt_self]
        exact hM
      · rw [update_correct_slotAt_ne g Q p lg.letter hp]
        exact hs1 p
    · rw [update_correct_mi] at hc
      obtain ⟨hcM, hcmi⟩ := Finset.mem_erase.mp hc
      obtain ⟨p, s, hp, hT⟩ := hs2 c hcmi
      have hpQ : p ≠ Q := by
        intro h
        subst h
        exact hcM (hM.trans hT).symm
      exact ⟨p, s, by
        rw [update_correct_slotAt_ne g Q p lg.letter hpQ]; exact hp, hT⟩
    · obtain ⟨hpos, hmi⟩ := (match_spec _ w).mp hw
      refine (match_spec g w).mpr ⟨fun p => ?_, fun c hc => ?_⟩
      · by_cases hp : p = Q
        · subst hp
          have h2 := hpos p
          rw [update_correct_slotAt_self] at h2
          have hwQ : letterAt w p = lg.letter :=
            (letterMatches_letter _ _).mp h2
          cases hsl : g.slotAt p with
          | letter m =>
            have hm : m = letterAt T p := by
              have := hs1 p
              rw [hsl] at this
              exact this
            rw [letterMatches_letter]
            rw [hwQ, hM, hm]
          | options s =>
            have hm : letterAt T p ∈ s := by
              have := hs1 p
              rw [hsl] at this
              exact this
            rw [letterMatches_options, hwQ, hM]
            exact hm
        · have h2 := hpos p
          rw [update_correct_slotAt_ne g Q p lg.letter hp] at h2
          exact h2
      · by_cases hcM : c = lg.letter
        · subst hcM
          have h2 := hpos Q
          rw [update_correct_slotAt_self] at h2
          exact (mem_word_list w lg.letter).mpr
            ⟨Q, (letterMatches_letter _ _).mp h2⟩
        · refine hmi c ?_
          rw [update_correct_mi]
          exact Finset.mem_erase.mpr ⟨hcM, hc⟩
  | WRONG_SPOT =>
    rw [applyPair_wrong g Q lg hres] at happ
    obtain ⟨hMT, hMQ⟩ := (stepOK_wrong T (Q, lg) hres).mp hok
    cases hsl : g.slotAt Q with
    | letter m =>
      rw [wrong_spot_at_letter g Q lg.letter m hsl] at happ
      cases Option.some.inj happ
      refine ⟨⟨fun p => ?_, fun c hc => ?_⟩, fun w hw => ?_⟩
      · rw [wrongSpotAdd_slotAt]
        exact hs1 p
      · rw [wrongSpotAdd_mi] at hc
        have hold : ∀ d, d ∈ g.must_include → ∃ p s,
            (wrongSpotAdd g lg.letter).slotAt p = .options s ∧
              letterAt T p = d := by
          intro d hd
          obtain ⟨p, s, hp, hT⟩ := hs2 d hd
          exact ⟨p, s, by rw [wrongSpotAdd_slotAt]; exact hp, hT⟩
        by_cases hconf : hasConfirmed g lg.letter = true
        · rw [if_pos hconf] at hc
          exact hold c hc
        · rw [if_neg hconf] at hc
          rcases Finset.mem_insert.mp hc with rfl | hc
          · obtain ⟨p0, hT0⟩ := (mem_word_list T lg.letter).mp hMT
            cases hsl0 : g.slotAt p0 with
            | letter m0 =>
              exfalso
              have hm0 : m0 = letterAt T p0 := by
                have := hs1 p0
                rw [hsl0] at this
                exact this
              exact hconf (hasConfirmed_of_slotAt g p0 lg.letter
                (by rw [hsl0, hm0, hT0]))
            | options s0 =>
              exact ⟨p0, s0, by rw [wrongSpotAdd_slotAt]; exact hsl0, hT0⟩
          · exact hold c hc
      · obtain ⟨hpos, hmi⟩ := (match_spec _ w).mp hw
        refine (match_spec g w).mpr ⟨fun p => ?_, fun c hc => ?_⟩
        · have h2 := hpos p
          rw [wrongSpotAdd_slotAt] at h2
          exact h2
        · refine hmi c ?_
          rw [wrongSpotAdd_mi]
          split
          · exact hc
          · exact Finset.mem_insert_of_mem hc
    | options s =>
      rw [wrong_spot_at_options g Q lg.letter s hsl] at happ
      by_cases hcs : lg.letter ∈ s
      · rw [if_pos hcs] at happ
        cases Option.some.inj happ
        have hTQs : letterAt T Q ∈ s := by
          have := hs1 Q
          rw [hsl] at this
          exact this
        refine ⟨⟨fun p => ?_, fun c hc => ?_⟩, fun w hw => ?_⟩
        · by_cases hp : p = Q
          · subst hp
            rw [wrongSpotAdd_slotAt, slotAt_setSlot_self]
            exact Finset.mem_erase.mpr ⟨fun h => hMQ h.symm, hTQs⟩
          · rw [wrongSpotAdd_slotAt, slotAt_setSlot_ne g Q p _ hp]
            exact hs1 p
        · rw [wrongSpotAdd_mi, mi_setSlot] at hc
          have hold : ∀ d, d ∈ g.must_include → ∃ p s2,
              (wrongSpotAdd (g.setSlot Q (.options (s.erase lg.letter)))
                lg.letter).slotAt p = .options s2 ∧ letterAt T p = d := by
            intro d hd
            obtain ⟨p, s2, hp, hT⟩ := hs2 d hd
            by_cases hpQ : p = Q
            · subst hpQ
              refine ⟨p, s.erase lg.letter, ?_, hT⟩
              rw [wrongSpotAdd_slotAt, slotAt_setSlot_self]
            · exact ⟨p, s2, by
                rw [wrongSpotAdd_slotAt, slotAt_setSlot_ne g Q p _ hpQ]
                exact hp, hT⟩
          by_cases hconf :
              hasConfirmed (g.setSlot Q (.options (s.erase lg.letter)))
                lg.letter = true
          · rw [if_pos hconf] at hc
            exact hold c hc
          · rw [if_neg hconf] at hc
            rcases Finset.mem_insert.mp hc with rfl | hc
            · obtain ⟨p0, hT0⟩ := (mem_word_list T lg.letter).mp hMT
              have hp0Q : p0 ≠ Q := by
                intro h
                subst h
                exact hMQ hT0.symm
              cases hsl0 : g.slotAt p0 with
              | letter m0 =>
                exfalso
                have hm0 : m0 = letterAt T p0 := by
                  have := hs1 p0
                  rw [hsl0] at this
                  exact this
                refine hconf (hasConfirmed_of_slotAt _ p0 lg.letter ?_)
                rw [slotAt_setSlot_ne g Q p0 _ hp0Q, hsl0, hm0, hT0]
              | options s0 =>
                refine ⟨p0, s0, ?_, hT0⟩
                rw [wrongSpotAdd_slotAt, slotAt_setSlot_ne g Q p0 _ hp0Q]
                exact hsl0
            · exact hold c hc
        · obtain ⟨hpos, hmi⟩ := (match_spec _ w).mp hw
          refine (match_spec g w).mpr ⟨fun p => ?_, fun c hc => ?_⟩
          · have h2 := hpos p
            by_cases hp : p = Q
            · subst hp
              rw [wrongSpotAdd_slotAt, slotAt_setSlot_self] at h2
              rw [hsl]
              rw [letterMatches_options] at h2 ⊢
              exact Finset.mem_of_mem_erase h2
            · rw [wrongSpotAdd_slotAt, slotAt_setSlot_ne g Q p _ hp] at h2
              exact h2
          · refine hmi c ?_
            rw [wrongSpotAdd_mi, mi_setSlot]
            split
            · exact hc
            · exact Finset.mem_insert_of_mem hc
      · rw [if_neg hcs] at happ
        exact Option.noConfusion happ
  | NOT_IN_WORD =>
    rw [applyPair_notin g Q lg hres] at happ
    cases Option.some.inj happ
    have hMT : lg.letter ∉ T.list := (stepOK_notin T (Q, lg) hres).mp hok
    refine ⟨⟨fun p => ?_, fun c hc => ?_⟩, fun w hw => ?_⟩
    · rw [notin_slotAt]
      cases hsl : g.slotAt p with
      | letter m =>
        have := hs1 p
        rw [hsl] at this
        exact this
      | options s =>
        have hTs : letterAt T p ∈ s := by
          have := hs1 p
          rw [hsl] at this
          exact this
        refine Finset.mem_erase.mpr ⟨?_, hTs⟩
        intro h
        exact hMT (h ▸ (mem_word_list T (letterAt T p)).mpr ⟨p, rfl⟩)
    · rw [notin_mi] at hc
      obtain ⟨p, s, hp, hT⟩ := hs2 c hc
      refine ⟨p, s.erase lg.letter, ?_, hT⟩
      rw [notin_slotAt, hp]
    · obtain ⟨hpos, hmi⟩ := (match_spec _ w).mp hw
      refine (match_spec g w).mpr ⟨fun p => ?_, fun c hc => ?_⟩
      · have h2 := hpos p
        rw [notin_slotAt] at h2
        cases hsl : g.slotAt p with
        | letter m =>
          rw [hsl] at h2
          exact h2
        | options s =>
          rw [hsl] at h2
          rw [letterMatches_options] at h2 ⊢
          exact Finset.mem_of_mem_erase h2
      · exact hmi c (by rw [notin_mi]; exact hc)

end WordleHelper

namespace WordleHelper

/-- One collapse step keeps the state sound and can only narrow the set
of matching words. -/
theorem sound_mono_collapse_letter (T : Word) (g : GameProgress) (d : Char)
    (hd : d ∈ g.must_include) (hs : SoundState T g) :
    SoundState T (collapse_letter g d) ∧
      ∀ w, (collapse_letter g d).is_possible_match w = true →
        g.is_possible_match w = true := by
  obtain ⟨hs1, hs2⟩ := hs
  rcases collapse_letter_cases g d with heq | ⟨p, s, hps, hds, hopen, heq⟩
  · rw [heq]
    exact ⟨⟨hs1, hs2⟩, fun w h => h⟩
  · have hTp : letterAt T p = d := by
      obtain ⟨q, s2, hq, hTq⟩ := hs2 d hd
      have hds2 : d ∈ s2 := by
        have := hs1 q
        rw [hq] at this
        exact hTq ▸ this
      have hqmem : q ∈ openPositionsWith g d :=
        mem_openPositionsWith g d q s2 hq hds2
      rw [hopen] at hqmem
      rcases List.mem_singleton.mp hqmem with rfl
      exact hTq
    rw [heq]
    refine ⟨⟨fun q => ?_, fun c hc => ?_⟩, fun w hw => ?_⟩
    · by_cases hqp : q = p
      · subst hqp
        rw [update_correct_slotAt_self]
        exact hTp.symm
      · rw [update_correct_slotAt_ne g p q d hqp]
        exact hs1 q
    · rw [update_correct_mi] at hc
      obtain ⟨hcd, hcmi⟩ := Finset.mem_erase.mp hc
      obtain ⟨q, s2, hq, hTq⟩ := hs2 c hcmi
      have hqp : q ≠ p := by
        intro h
        subst h
        exact hcd (hTq ▸ hTp.symm).symm
      exact ⟨q, s2, by
        rw [update_correct_slotAt_ne g p q d hqp]; exact hq, hTq⟩
    · obtain ⟨hpos, hmi⟩ := (match_spec _ w).mp hw
      refine (match_spec g w).mpr ⟨fun q => ?_, fun c hc => ?_⟩
      · by_cases hqp : q = p
        · subst hqp
          have h2 := hpos q
          rw [update_correct_slotAt_self] at h2
          rw [hps, letterMatches_options]
          rw [letterMatches_letter] at h2
          exact h2 ▸ hds
        · have h2 := hpos q
          rw [update_correct_slotAt_ne g p q d hqp] at h2
          exact h2
      · by_cases hcd : c = d
        · subst hcd
          have h2 := hpos p
          rw [update_correct_slotAt_self] at h2
          exact (mem_word_list w c).mpr ⟨p, (letterMatches_letter _ _).mp h2⟩
        · refine hmi c ?_
          rw [update_correct_mi]
          exact Finset.mem_erase.mpr ⟨hcd, hc⟩


/-- `collapse_must_include` keeps the state sound and narrows matches. -/
theorem sound_mono_collapse (T : Word) (g : GameProgress)
    (hs : SoundState T g) :
    SoundState T (collapse_must_include g) ∧
      ∀ w, (collapse_must_include g).is_possible_match w = true →
        g.is_possible_match w = true := by
  have hpass : ∀ (letters : List Char) (g0 : GameProgress), letters.Nodup →
      (∀ c ∈ letters, c ∈ g0.must_include) → SoundState T g0 →
      SoundState T (letters.foldl collapse_letter g0) ∧
      ∀ w, (letters.foldl collapse_letter g0).is_possible_match w = true →
        g0.is_possible_match w = true := by
    intro letters
    induction letters with
    | nil => exact fun g0 _ _ h => ⟨h, fun w hw => hw⟩
    | cons c rest ih =>
      intro g0 hnd hmem hsg
      rw [List.foldl_cons]
      have hcg : c ∈ g0.must_include := hmem c (List.mem_cons_self _ _)
      obtain ⟨hsound1, hmono1⟩ := sound_mono_collapse_letter T g0 c hcg hsg
      obtain ⟨hsound2, hmono2⟩ := ih (collapse_letter g0 c)
        (List.nodup_cons.mp hnd).2
        (fun d hd => collapse_letter_mem_of_ne g0 c d
          (fun hdc => (List.nodup_cons.mp hnd).1 (hdc ▸ hd))
          (hmem d (List.mem_cons_of_mem _ hd)))
        hsound1
      exact ⟨hsound2, fun w hw => hmono1 w (hmono2 w hw)⟩
  have hloop : ∀ (fuel : Nat) (g0 : GameProgress), SoundState T g0 →
      SoundState T (collapse_loop fuel g0) ∧
      ∀ w, (collapse_loop fuel g0).is_possible_match w = true →
        g0.is_possible_match w = true := by
    intro fuel
    induction fuel with
    | zero => exact fun g0 h => ⟨h, fun w hw => hw⟩
    | succ n ih =>
      intro g0 hsg
      rw [collapse_loop]
      obtain ⟨hsound1, hmono1⟩ := hpass (sortedOf g0.must_include) g0
        (nodup_sortedOf _) (fun c hc => (mem_sortedOf _ c).mp hc) hsg
      by_cases h : (collapse_pass g0).must_include = g0.must_include
      · rw [if_pos h]
        exact ⟨hsound1, hmono1⟩
      · rw [if_neg h]
        obtain ⟨hsound2, hmono2⟩ := ih (collapse_pass g0) hsound1
        exact ⟨hsound2, fun w hw => hmono1 w (hmono2 w hw)⟩
  exact hloop (g.must_include.card + 1) g hs

/-- A whole consistent round keeps the state sound and narrows the set
of matching words. -/
theorem sound_mono_update (T : Word) (g g1 : GameProgress)
    (guess : WordGuess) (hcons : ConsistentWith T guess)
    (hupd : g.update guess = some g1) (hs : SoundState T g) :
    SoundState T g1 ∧
      ∀ w, g1.is_possible_match w = true → g.is_possible_match w = true := by
  rw [GameProgress.update] at hupd
  obtain ⟨g2, hrun, hb⟩ := Option.map_eq_some'.mp hupd
  subst hb
  have hsteps : ∀ (pairs : List (Position × LetterGuess))
      (ga gb : GameProgress), (∀ pr ∈ pairs, stepOK T pr = true) →
      runSteps ga pairs = some gb → SoundState T ga →
      SoundState T gb ∧
      ∀ w, gb.is_possible_match w = true → ga.is_possible_match w = true := by
    intro pairs
    induction pairs with
    | nil =>
      intro ga gb _ hrun2 hsa
      cases Option.some.inj hrun2
      exact ⟨hsa, fun w hw => hw⟩
    | cons pr rest ih =>
      intro ga gb hok hrun2 hsa
      rw [runSteps] at hrun2
      cases happ : applyPair ga pr with
      | none => rw [happ] at hrun2; exact Option.noConfusion hrun2
      | some gc =>
        rw [happ] at hrun2
        obtain ⟨hsound1, hmono1⟩ := sound_mono_step T ga gc pr
          (hok pr (List.mem_cons_self _ _)) happ hsa
        obtain ⟨hsound2, hmono2⟩ := ih gc gb
          (fun q hq => hok q (List.mem_cons_of_mem _ hq)) hrun2 hsound1
        exact ⟨hsound2, fun w hw => hmono1 w (hmono2 w hw)⟩
  obtain ⟨hsound1, hmono1⟩ := hsteps (stepList guess) g g2 hcons hrun hs
  obtain ⟨hsound2, hmono2⟩ := sound_mono_collapse T g2 hsound1
  exact ⟨hsound2, fun w hw => hmono1 w (hmono2 w hw)⟩

/-- Every reachable state is sound for its target. -/
theorem reachable_sound (T : Word)
    (hT : ∀ p, letterAt T p ∈ ALL_LETTERS) (g : GameProgress)
    (hreach : Reachable T g) : SoundState T g := by
  induction hreach with
  | init =>
    constructor
    · intro p
      have : GameProgress.init.slotAt p = .options ALL_LETTERS := by
        cases p <;> rfl
      rw [this]
      exact hT p
    · intro c hc
      exact absurd hc (Finset.not_mem_empty c)
  | step hr hcons hupd ih =>
    exact (sound_mono_update _ _ _ _ hcons hupd ih).1

end WordleHelper

open WordleHelper in
/-- C4: matching is monotonically restrictive.  For a target word `T`
over the alphabet, a state reachable by feedback consistent with `T`,
and one more consistent round after which `update` returns normally, a
word excluded before the round is still excluded after it. -/
theorem c4_match_monotone (T : Word) (gp : GameProgress)
    (guess : WordGuess) (gp2 : GameProgress) (w : Word)
    (hT : ∀ p, letterAt T p ∈ ALL_LETTERS)
    (hreach : Reachable T gp)
    (hcons : ConsistentWith T guess)
    (hupd : gp.update guess = some gp2)
    (hex : gp.is_possible_match w = false) :
    gp2.is_possible_match w = false := by
  have hsound : SoundState T gp := reachable_sound T hT gp hreach
  obtain ⟨_, hmono⟩ := sound_mono_update T gp gp2 guess hcons hupd hsound
  cases hb : gp2.is_possible_match w with
  | false => rfl
  | true => rw [hmono w hb] at hex; exact Bool.noConfusion hex

namespace WordleHelper

/-- A concrete target word. -/
def wordCrane : Word := ⟨'c', 'r', 'a', 'n', 'e'⟩

/-- A round reporting 'z' not in the word at every position. -/
def notGuessZ : WordGuess :=
  ⟨⟨'z', .NOT_IN_WORD⟩, ⟨'z', .NOT_IN_WORD⟩, ⟨'z', .NOT_IN_WORD⟩,
    ⟨'z', .NOT_IN_WORD⟩, ⟨'z', .NOT_IN_WORD⟩⟩

/-- A round reporting 'y' not in the word at every position. -/
def notGuessY : WordGuess :=
  ⟨⟨'y', .NOT_IN_WORD⟩, ⟨'y', .NOT_IN_WORD⟩, ⟨'y', .NOT_IN_WORD⟩,
    ⟨'y', .NOT_IN_WORD⟩, ⟨'y', .NOT_IN_WORD⟩⟩

/-- The state after the `notGuessZ` round on a fresh game. -/
def zState : GameProgress :=
  ⟨.options (ALL_LETTERS.erase 'z'), .options (ALL_LETTERS.erase 'z'),
    .options (ALL_LETTERS.erase 'z'), .options (ALL_LETTERS.erase 'z'),
    .options (ALL_LETTERS.erase 'z'), ∅⟩

/-- The state after the further `notGuessY` round. -/
def zyState : GameProgress :=
  ⟨.options ((ALL_LETTERS.erase 'z').erase 'y'),
    .options ((ALL_LETTERS.erase 'z').erase 'y'),
    .options ((ALL_LETTERS.erase 'z').erase 'y'),
    .options ((ALL_LETTERS.erase 'z').erase 'y'),
    .options ((ALL_LETTERS.erase 'z').erase 'y'), ∅⟩

/-- The word "zzzzz". -/
def wordZ : Word := ⟨'z', 'z', 'z', 'z', 'z'⟩

end WordleHelper

open WordleHelper in
/-- Witness for C4: "zzzzz" is excluded after the first consistent round
and stays excluded after the second. -/
theorem c4_witness : zyState.is_possible_match wordZ = false :=
  c4_match_monotone wordCrane zState notGuessY zyState wordZ
    (by intro p; cases p <;> decide)
    (@Reachable.step wordCrane GameProgress.init zState notGuessZ
      Reachable.init (by decide) (by decide))
    (by decide) (by decide) (by decide)

/-! ## Claim C2: single pass versus phased reference -/

namespace WordleHelper

/-- The phased reference update of C2, following the specification text:
apply all Correct-Spot outcomes of the round first, then all Wrong-Spot
outcomes, then all Not-In-Word outcomes, and then run the collapse pass.
This definition follows the words of the specification and is compared
with `GameProgress.update`, which is translated from the code. -/
def GameProgress.update_ref_spec (g : GameProgress) (guess : WordGuess) :
    Option GameProgress :=
  (runSteps g
    ((stepList guess).filter (fun pr => decide (pr.2.result = .CORRECT_SPOT)) ++
      (stepList guess).filter (fun pr => decide (pr.2.result = .WRONG_SPOT)) ++
      (stepList guess).filter
        (fun pr => decide (pr.2.result = .NOT_IN_WORD)))).map
    collapse_must_include

/-- Every confirmed slot of the state carries its target letter. -/
def Confirms (T : Word) (g : GameProgress) : Prop :=
  ∀ p m, g.slotAt p = .letter m → m = letterAt T p

theorem option_bind_congr {α β : Type} (o : Option α) (f1 f2 : α → Option β)
    (h : ∀ a, o = some a → f1 a = f2 a) : o.bind f1 = o.bind f2 := by
  cases o with
  | none => rfl
  | some a => exact h a rfl

theorem runSteps_cons_bind (g : GameProgress) (pr : Position × LetterGuess)
    (l : List (Position × LetterGuess)) :
    runSteps g (pr :: l) = (applyPair g pr).bind fun g1 => runSteps g1 l := by
  rw [runSteps]
  cases applyPair g pr <;> rfl

theorem hasConfirmed_congr (g1 g2 : GameProgress) (c : Char)
    (h : ∀ p, g1.slotAt p = .letter c ↔ g2.slotAt p = .letter c) :
    hasConfirmed g1 c = hasConfirmed g2 c := by
  rw [Bool.eq_iff_iff, hasConfirmed_iff, hasConfirmed_iff]
  exact exists_congr h

/-- A consistent step preserves `Confirms`. -/
theorem confirms_step (T : Word) (g g1 : GameProgress)
    (pr : Position × LetterGuess) (hok : stepOK T pr = true)
    (happ : applyPair g pr = some g1) (hc : Confirms T g) :
    Confirms T g1 := by
  obtain ⟨Q, lg⟩ := pr
  cases hres : lg.result with
  | CORRECT_SPOT =>
    rw [applyPair_correct g Q lg hres] at happ
    cases Option.some.inj happ
    intro p m hp
    by_cases hpQ : p = Q
    · subst hpQ
      rw [update_correct_slotAt_self] at hp
      cases LetterOptions.letter.inj hp
      exact (stepOK_correct T (p, lg) hres).mp hok
    · rw [update_correct_slotAt_ne g Q p lg.letter hpQ] at hp
      exact hc p m hp
  | WRONG_SPOT =>
    rw [applyPair_wrong g Q lg hres] at happ
    cases hsl : g.slotAt Q with
    | letter m0 =>
      rw [wrong_spot_at_letter g Q lg.letter m0 hsl] at happ
      cases Option.some.inj happ
      intro p m hp
      rw [wrongSpotAdd_slotAt] at hp
      exact hc p m hp
    | options s =>
      rw [wrong_spot_at_options g Q lg.letter s hsl] at happ
      by_cases hcs : lg.letter ∈ s
      · rw [if_pos hcs] at happ
        cases Option.some.inj happ
        intro p m hp
        rw [wrongSpotAdd_slotAt] at hp
        by_cases hpQ : p = Q
        · subst hpQ
          rw [slotAt_setSlot_self] at hp
          exact absurd hp (fun h => LetterOptions.noConfusion h)
        · rw [slotAt_setSlot_ne g Q p _ hpQ] at hp
          exact hc p m hp
      · rw [if_neg hcs] at happ
        exact Option.noConfusion happ
  | NOT_IN_WORD =>
    rw [applyPair_notin g Q lg hres] at happ
    cases Option.some.inj happ
    intro p m hp
    rw [notin_slotAt] at hp
    cases hsl : g.slotAt p with
    | letter m0 =>
      rw [hsl] at hp
      cases LetterOptions.letter.inj hp
      exact hc p m hsl
    | options s =>
      rw [hsl] at hp
      exact absurd hp (fun h => LetterOptions.noConfusion h)

/-- `update_letter_is_not_in_word` changes no confirmed slot. -/
theorem notin_letter_slot_iff (g : GameProgress) (c d : Char) (p : Position) :
    (update_letter_is_not_in_word g d).slotAt p = .letter c ↔
      g.slotAt p = .letter c := by
  rw [notin_slotAt]
  cases hsl : g.slotAt p with
  | letter m => exact Iff.rfl
  | options s =>
    constructor
    · exact fun h => absurd h (fun h2 => LetterOptions.noConfusion h2)
    · exact fun h => absurd h (fun h2 => LetterOptions.noConfusion h2)

end WordleHelper

namespace WordleHelper

/-- A Correct-Spot step and a Not-In-Word step commute. -/
theorem swap_correct_notin (g : GameProgress)
    (prC prN : Position × LetterGuess)
    (hC : prC.2.result = .CORRECT_SPOT) (hN : prN.2.result = .NOT_IN_WORD) :
    (applyPair g prC).bind (fun g1 => applyPair g1 prN) =
      (applyPair g prN).bind (fun g1 => applyPair g1 prC) := by
  obtain ⟨Q2, lgC⟩ := prC
  obtain ⟨Q1, lgN⟩ := prN
  rw [applyPair_correct g Q2 lgC hC, applyPair_notin g Q1 lgN hN,
    Option.some_bind, Option.some_bind, applyPair_notin _ Q1 lgN hN,
    applyPair_correct _ Q2 lgC hC]
  congr 1
  apply ext_of_slotAt
  · intro p
    by_cases hp : p = Q2
    · subst hp
      rw [notin_slotAt, update_correct_slotAt_self, update_correct_slotAt_self]
    · rw [notin_slotAt, update_correct_slotAt_ne g Q2 p _ hp,
        update_correct_slotAt_ne _ Q2 p _ hp, notin_slotAt]
  · rw [notin_mi, update_correct_mi, update_correct_mi, notin_mi]

/-- A Wrong-Spot step and a Not-In-Word step with a different letter
commute. -/
theorem swap_wrong_notin (g : GameProgress)
    (prW prN : Position × LetterGuess)
    (hW : prW.2.result = .WRONG_SPOT) (hN : prN.2.result = .NOT_IN_WORD)
    (hMne : prN.2.letter ≠ prW.2.letter) :
    (applyPair g prW).bind (fun g1 => applyPair g1 prN) =
      (applyPair g prN).bind (fun g1 => applyPair g1 prW) := by
  obtain ⟨Qw, lgW⟩ := prW
  obtain ⟨Qn, lgN⟩ := prN
  replace hMne : lgN.letter ≠ lgW.letter := hMne
  rw [applyPair_wrong g Qw lgW hW, applyPair_notin g Qn lgN hN,
    Option.some_bind, applyPair_wrong _ Qw lgW hW]
  cases hsl : g.slotAt Qw with
  | letter m =>
    have hsl2 : (update_letter_is_not_in_word g lgN.letter).slotAt Qw =
        .letter m := by
      rw [notin_slotAt, hsl]
    rw [wrong_spot_at_letter g Qw lgW.letter m hsl, Option.some_bind,
      applyPair_notin _ Qn lgN hN,
      wrong_spot_at_letter _ Qw lgW.letter m hsl2]
    congr 1
    apply ext_of_slotAt
    · intro p
      rw [notin_slotAt, wrongSpotAdd_slotAt, wrongSpotAdd_slotAt, notin_slotAt]
    · rw [notin_mi, wrongSpotAdd_mi, wrongSpotAdd_mi, notin_mi,
        hasConfirmed_congr (update_letter_is_not_in_word g lgN.letter) g
          lgW.letter (fun p => notin_letter_slot_iff g lgW.letter lgN.letter p)]
  | options s =>
    have hsl2 : (update_letter_is_not_in_word g lgN.letter).slotAt Qw =
        .options (s.erase lgN.letter) := by
      rw [notin_slotAt, hsl]
    rw [wrong_spot_at_options g Qw lgW.letter s hsl,
      wrong_spot_at_options _ Qw lgW.letter (s.erase lgN.letter) hsl2]
    have hmem2 : lgW.letter ∈ s.erase lgN.letter ↔ lgW.letter ∈ s :=
      ⟨fun h => Finset.mem_of_mem_erase h,
        fun h => Finset.mem_erase.mpr ⟨fun h2 => hMne h2.symm, h⟩⟩
    by_cases hcs : lgW.letter ∈ s
    · rw [if_pos hcs, if_pos (hmem2.mpr hcs), Option.some_bind,
        applyPair_notin _ Qn lgN hN]
      congr 1
      apply ext_of_slotAt
      · intro p
        by_cases hp : p = Qw
        · subst hp
          rw [notin_slotAt, wrongSpotAdd_slotAt, slotAt_setSlot_self,
            wrongSpotAdd_slotAt, slotAt_setSlot_self]
          rw [Finset.erase_right_comm]
        · rw [notin_slotAt, wrongSpotAdd_slotAt, slotAt_setSlot_ne g Qw p _ hp,
            wrongSpotAdd_slotAt, slotAt_setSlot_ne _ Qw p _ hp, notin_slotAt]
      · rw [notin_mi, wrongSpotAdd_mi, wrongSpotAdd_mi, mi_setSlot,
          mi_setSlot, notin_mi]
        have hcongr :
            hasConfirmed (g.setSlot Qw (.options (s.erase lgW.letter)))
                lgW.letter =
              hasConfirmed ((update_letter_is_not_in_word g lgN.letter).setSlot
                Qw (.options ((s.erase lgN.letter).erase lgW.letter)))
                lgW.letter := by
          apply hasConfirmed_congr
          intro p
          by_cases hp : p = Qw
          · subst hp
            rw [slotAt_setSlot_self, slotAt_setSlot_self]
            constructor
            · exact fun h => absurd h (fun h2 => LetterOptions.noConfusion h2)
            · exact fun h => absurd h (fun h2 => LetterOptions.noConfusion h2)
          · rw [slotAt_setSlot_ne g Qw p _ hp, slotAt_setSlot_ne _ Qw p _ hp]
            exact (notin_letter_slot_iff g lgW.letter lgN.letter p).symm
        rw [hcongr]
    · rw [if_neg hcs, if_neg (fun h => hcs (hmem2.mp h))]
      rfl

end WordleHelper

namespace WordleHelper

/-- A Correct-Spot step and a Wrong-Spot step at different positions
commute, provided both are consistent with the target and the state's
confirmed slots agree with the target. -/
theorem swap_correct_wrong (T : Word) (g : GameProgress)
    (prC prW : Position × LetterGuess)
    (hC : prC.2.result = .CORRECT_SPOT) (hW : prW.2.result = .WRONG_SPOT)
    (hne : prW.1 ≠ prC.1)
    (hokC : stepOK T prC = true) (hokW : stepOK T prW = true)
    (hconf : Confirms T g) :
    (applyPair g prC).bind (fun g1 => applyPair g1 prW) =
      (applyPair g prW).bind (fun g1 => applyPair g1 prC) := by
  obtain ⟨Qc, lgC⟩ := prC
  obtain ⟨Qw, lgW⟩ := prW
  replace hne : Qw ≠ Qc := hne
  have hMc : lgC.letter = letterAt T Qc :=
    (stepOK_correct T (Qc, lgC) hC).mp hokC
  obtain ⟨hWT, hWQ⟩ := (stepOK_wrong T (Qw, lgW) hW).mp hokW
  rw [applyPair_correct g Qc lgC hC, Option.some_bind,
    applyPair_wrong _ Qw lgW hW, applyPair_wrong g Qw lgW hW]
  have hslC : (update_correct_letter g Qc lgC.letter).slotAt Qw =
      g.slotAt Qw :=
    update_correct_slotAt_ne g Qc Qw lgC.letter hne
  cases hsl : g.slotAt Qw with
  | letter m =>
    rw [wrong_spot_at_letter _ Qw lgW.letter m (by rw [hslC, hsl]),
      wrong_spot_at_letter g Qw lgW.letter m hsl, Option.some_bind,
      applyPair_correct _ Qc lgC hC]
    congr 1
    apply ext_of_slotAt
    · intro p
      by_cases hp : p = Qc
      · subst hp
        rw [wrongSpotAdd_slotAt, update_correct_slotAt_self,
          update_correct_slotAt_self]
      · rw [wrongSpotAdd_slotAt, update_correct_slotAt_ne g Qc p _ hp,
          update_correct_slotAt_ne _ Qc p _ hp, wrongSpotAdd_slotAt]
    · rw [wrongSpotAdd_mi, update_correct_mi, update_correct_mi,
        wrongSpotAdd_mi]
      by_cases hMcw : lgW.letter = lgC.letter
      · rw [hMcw]
        rw [if_pos (hasConfirmed_of_slotAt _ Qc lgC.letter
          (update_correct_slotAt_self g Qc lgC.letter))]
        split
        · rfl
        · rw [Finset.erase_insert_eq_erase]
      · have hceq : hasConfirmed (update_correct_letter g Qc lgC.letter)
            lgW.letter = hasConfirmed g lgW.letter := by
          apply hasConfirmed_congr
          intro p
          by_cases hp : p = Qc
          · subst hp
            rw [update_correct_slotAt_self]
            constructor
            · intro h
              exact absurd (LetterOptions.letter.inj h).symm hMcw
            · intro h
              exact absurd ((hconf p lgW.letter h).trans hMc.symm) hMcw
          · rw [update_correct_slotAt_ne g Qc p _ hp]
        rw [hceq]
        split
        · rfl
        · rw [Finset.erase_insert_of_ne hMcw]
  | options s =>
    rw [wrong_spot_at_options _ Qw lgW.letter s (by rw [hslC, hsl]),
      wrong_spot_at_options g Qw lgW.letter s hsl]
    by_cases hcs : lgW.letter ∈ s
    · rw [if_pos hcs, if_pos hcs, Option.some_bind,
        applyPair_correct _ Qc lgC hC]
      congr 1
      apply ext_of_slotAt
      · intro p
        by_cases hp : p = Qc
        · subst hp
          rw [wrongSpotAdd_slotAt, slotAt_setSlot_ne _ Qw p _ (Ne.symm hne),
            update_correct_slotAt_self, update_correct_slotAt_self]
        · by_cases hpw : p = Qw
          · subst hpw
            rw [wrongSpotAdd_slotAt, slotAt_setSlot_self,
              update_correct_slotAt_ne _ Qc p _ hp, wrongSpotAdd_slotAt,
              slotAt_setSlot_self]
          · rw [wrongSpotAdd_slotAt, slotAt_setSlot_ne _ Qw p _ hpw,
              update_correct_slotAt_ne g Qc p _ hp,
              update_correct_slotAt_ne _ Qc p _ hp, wrongSpotAdd_slotAt,
              slotAt_setSlot_ne g Qw p _ hpw]
      · rw [wrongSpotAdd_mi, mi_setSlot, update_correct_mi,
          update_correct_mi, wrongSpotAdd_mi, mi_setSlot]
        by_cases hMcw : lgW.letter = lgC.letter
        · rw [hMcw]
          rw [if_pos (hasConfirmed_of_slotAt _ Qc lgC.letter (by
            rw [slotAt_setSlot_ne _ Qw Qc _ (Ne.symm hne),
              update_correct_slotAt_self]))]
          split
          · rfl
          · rw [Finset.erase_insert_eq_erase]
        · have hceq :
              hasConfirmed ((update_correct_letter g Qc lgC.letter).setSlot
                Qw (.options (s.erase lgW.letter))) lgW.letter =
              hasConfirmed (g.setSlot Qw
                (.options (s.erase lgW.letter))) lgW.letter := by
            apply hasConfirmed_congr
            intro p
            by_cases hpw : p = Qw
            · subst hpw
              rw [slotAt_setSlot_self, slotAt_setSlot_self]
            · rw [slotAt_setSlot_ne _ Qw p _ hpw,
                slotAt_setSlot_ne g Qw p _ hpw]
              by_cases hp : p = Qc
              · subst hp
                rw [update_correct_slotAt_self]
                constructor
                · intro h
                  exact absurd (LetterOptions.letter.inj h).symm hMcw
                · intro h
                  exact absurd ((hconf p lgW.letter h).trans hMc.symm) hMcw
              · rw [update_correct_slotAt_ne g Qc p _ hp]
          rw [hceq]
          split
          · rfl
          · rw [Finset.erase_insert_of_ne hMcw]
    · rw [if_neg hcs, if_neg hcs]
      rfl

end WordleHelper

namespace WordleHelper

/-- A step whose swap law holds against every element of `ms` can be
moved to the front of the run. -/
theorem runSteps_bubble (T : Word) (pr : Position × LetterGuess)
    (Z : List (Position × LetterGuess)) :
    ∀ (ms : List (Position × LetterGuess)) (g : GameProgress),
      Confirms T g →
      (∀ m ∈ ms, stepOK T m = true) →
      (∀ (g2 : GameProgress) (m : Position × LetterGuess), m ∈ ms →
        Confirms T g2 →
        (applyPair g2 m).bind (fun g3 => applyPair g3 pr) =
          (applyPair g2 pr).bind (fun g3 => applyPair g3 m)) →
      runSteps g (ms ++ pr :: Z) = runSteps g (pr :: (ms ++ Z)) := by
  intro ms
  induction ms with
  | nil => intro g _ _ _; rfl
  | cons m ms2 ih =>
    intro g hconf hok hswap
    calc runSteps g ((m :: ms2) ++ pr :: Z)
        = (applyPair g m).bind (fun g1 => runSteps g1 (ms2 ++ pr :: Z)) := by
          rw [List.cons_append, runSteps_cons_bind]
      _ = (applyPair g m).bind (fun g1 => runSteps g1 (pr :: (ms2 ++ Z))) := by
          apply option_bind_congr
          intro g1 happ
          exact ih g1
            (confirms_step T g g1 m (hok m (List.mem_cons_self _ _)) happ hconf)
            (fun q hq => hok q (List.mem_cons_of_mem _ hq))
            (fun g2 q hq hc2 => hswap g2 q (List.mem_cons_of_mem _ hq) hc2)
      _ = (applyPair g m).bind (fun g1 => (applyPair g1 pr).bind
            (fun g2 => runSteps g2 (ms2 ++ Z))) := by
          apply option_bind_congr
          intro g1 _
          exact runSteps_cons_bind g1 pr (ms2 ++ Z)
      _ = ((applyPair g m).bind (fun g1 => applyPair g1 pr)).bind
            (fun g2 => runSteps g2 (ms2 ++ Z)) :=
          (Option.bind_assoc _ _ _).symm
      _ = ((applyPair g pr).bind (fun g1 => applyPair g1 m)).bind
            (fun g2 => runSteps g2 (ms2 ++ Z)) := by
          rw [hswap g m (List.mem_cons_self _ _) hconf]
      _ = (applyPair g pr).bind (fun g1 => (applyPair g1 m).bind
            (fun g2 => runSteps g2 (ms2 ++ Z))) :=
          Option.bind_assoc _ _ _
      _ = (applyPair g pr).bind (fun g1 => runSteps g1 (m :: (ms2 ++ Z))) := by
          apply option_bind_congr
          intro g1 _
          exact (runSteps_cons_bind g1 m (ms2 ++ Z)).symm
      _ = runSteps g (pr :: ((m :: ms2) ++ Z)) := by
          rw [runSteps_cons_bind, List.cons_append]

/-- Folding the outcome steps grouped by kind (Correct, then Wrong-Spot,
then Not-In-Word) computes the same result as folding them in position
order, for consistent feedback over a state whose confirmed slots agree
with the target. -/
theorem runSteps_phased (T : Word) :
    ∀ (pairs : List (Position × LetterGuess)) (g : GameProgress),
      Confirms T g → (∀ pr ∈ pairs, stepOK T pr = true) →
      (pairs.map Prod.fst).Nodup →
      runSteps g
        (pairs.filter (fun pr => decide (pr.2.result = .CORRECT_SPOT)) ++
          (pairs.filter (fun pr => decide (pr.2.result = .WRONG_SPOT)) ++
            pairs.filter (fun pr => decide (pr.2.result = .NOT_IN_WORD)))) =
      runSteps g pairs := by
  intro pairs
  induction pairs with
  | nil => intro g _ _ _; rfl
  | cons pr rest ih =>
    intro g hconf hok hnd
    rw [List.map_cons] at hnd
    have hndr := (List.nodup_cons.mp hnd).2
    have hhead : pr.1 ∉ rest.map Prod.fst := (List.nodup_cons.mp hnd).1
    have hokr : ∀ q ∈ rest, stepOK T q = true :=
      fun q hq => hok q (List.mem_cons_of_mem _ hq)
    have hokp : stepOK T pr = true := hok pr (List.mem_cons_self _ _)
    have hne : ∀ m ∈ rest, pr.1 ≠ m.1 := by
      intro m hm h
      exact hhead (h ▸ List.mem_map_of_mem Prod.fst hm)
    cases hres : pr.2.result with
    | CORRECT_SPOT =>
      have hfC : (pr :: rest).filter
          (fun q => decide (q.2.result = Result.CORRECT_SPOT)) =
          pr :: rest.filter
            (fun q => decide (q.2.result = Result.CORRECT_SPOT)) :=
        List.filter_cons_of_pos (by simp [hres])
      have hfW : (pr :: rest).filter
          (fun q => decide (q.2.result = Result.WRONG_SPOT)) =
          rest.filter (fun q => decide (q.2.result = Result.WRONG_SPOT)) :=
        List.filter_cons_of_neg (by simp [hres])
      have hfN : (pr :: rest).filter
          (fun q => decide (q.2.result = Result.NOT_IN_WORD)) =
          rest.filter (fun q => decide (q.2.result = Result.NOT_IN_WORD)) :=
        List.filter_cons_of_neg (by simp [hres])
      rw [hfC, hfW, hfN, List.cons_append, runSteps_cons_bind,
        runSteps_cons_bind]
      apply option_bind_congr
      intro g1 happ
      exact ih g1 (confirms_step T g g1 pr hokp happ hconf) hokr hndr
    | WRONG_SPOT =>
      have hfC : (pr :: rest).filter
          (fun q => decide (q.2.result = Result.CORRECT_SPOT)) =
          rest.filter (fun q => decide (q.2.result = Result.CORRECT_SPOT)) :=
        List.filter_cons_of_neg (by simp [hres])
      have hfW : (pr :: rest).filter
          (fun q => decide (q.2.result = Result.WRONG_SPOT)) =
          pr :: rest.filter
            (fun q => decide (q.2.result = Result.WRONG_SPOT)) :=
        List.filter_cons_of_pos (by simp [hres])
      have hfN : (pr :: rest).filter
          (fun q => decide (q.2.result = Result.NOT_IN_WORD)) =
          rest.filter (fun q => decide (q.2.result = Result.NOT_IN_WORD)) :=
        List.filter_cons_of_neg (by simp [hres])
      rw [hfC, hfW, hfN, List.cons_append]
      rw [runSteps_bubble T pr
        (rest.filter (fun q => decide (q.2.result = Result.WRONG_SPOT)) ++
          rest.filter (fun q => decide (q.2.result = Result.NOT_IN_WORD)))
        (rest.filter (fun q => decide (q.2.result = Result.CORRECT_SPOT)))
        g hconf
        (fun m hm => hokr m (List.mem_of_mem_filter hm))
        (fun g2 m hm hc2 => by
          have hmC : m.2.result = Result.CORRECT_SPOT := by
            have := List.of_mem_filter hm
            simpa using this
          exact swap_correct_wrong T g2 m pr hmC hres
            (hne m (List.mem_of_mem_filter hm))
            (hokr m (List.mem_of_mem_filter hm)) hokp hc2)]
      rw [runSteps_cons_bind, runSteps_cons_bind]
      apply option_bind_congr
      intro g1 happ
      exact ih g1 (confirms_step T g g1 pr hokp happ hconf) hokr hndr
    | NOT_IN_WORD =>
      have hfC : (pr :: rest).filter
          (fun q => decide (q.2.result = Result.CORRECT_SPOT)) =
          rest.filter (fun q => decide (q.2.result = Result.CORRECT_SPOT)) :=
        List.filter_cons_of_neg (by simp [hres])
      have hfW : (pr :: rest).filter
          (fun q => decide (q.2.result = Result.WRONG_SPOT)) =
          rest.filter (fun q => decide (q.2.result = Result.WRONG_SPOT)) :=
        List.filter_cons_of_neg (by simp [hres])
      have hfN : (pr :: rest).filter
          (fun q => decide (q.2.result = Result.NOT_IN_WORD)) =
          pr :: rest.filter
            (fun q => decide (q.2.result = Result.NOT_IN_WORD)) :=
        List.filter_cons_of_pos (by simp [hres])
      rw [hfC, hfW, hfN, ← List.append_assoc]
      rw [runSteps_bubble T pr
        (rest.filter (fun q => decide (q.2.result = Result.NOT_IN_WORD)))
        (rest.filter (fun q => decide (q.2.result = Result.CORRECT_SPOT)) ++
          rest.filter (fun q => decide (q.2.result = Result.WRONG_SPOT)))
        g hconf
        (fun m hm => hokr m (by
          rcases List.mem_append.mp hm with h | h
          · exact List.mem_of_mem_filter h
          · exact List.mem_of_mem_filter h))
        (fun g2 m hm hc2 => by
          rcases List.mem_append.mp hm with h | h
          · have hmC : m.2.result = Result.CORRECT_SPOT := by
              have := List.of_mem_filter h
              simpa using this
            exact swap_correct_notin g2 m pr hmC hres
          · have hmW : m.2.result = Result.WRONG_SPOT := by
              have := List.of_mem_filter h
              simpa using this
            have hMne : pr.2.letter ≠ m.2.letter := by
              intro hl
              have hprT : pr.2.letter ∉ T.list :=
                (stepOK_notin T pr hres).mp hokp
              have hmT : m.2.letter ∈ T.list :=
                ((stepOK_wrong T m hmW).mp
                  (hokr m (List.mem_of_mem_filter h))).1
              exact hprT (hl ▸ hmT)
            exact swap_wrong_notin g2 m pr hmW hres hMne)]
      rw [List.append_assoc, runSteps_cons_bind, runSteps_cons_bind]
      apply option_bind_congr
      intro g1 happ
      exact ih g1 (confirms_step T g g1 pr hokp happ hconf) hokr hndr

end WordleHelper

open WordleHelper in
/-- C2 (amended): for feedback consistent with a target word and a state
whose confirmed slots agree with that target (as every state reached by
consistent feedback does), the single first-to-fifth pass of
`GameProgress.update`, when it returns normally, produces exactly the
state of the phased reference that applies all Correct-Spot outcomes,
then all Wrong-Spot outcomes, then all Not-In-Word outcomes, and then
the collapse pass. -/
theorem c2_single_pass_refines_phased (T : Word) (gp : GameProgress)
    (guess : WordGuess) (gp2 : GameProgress)
    (hconf : Confirms T gp)
    (hcons : ConsistentWith T guess)
    (hupd : gp.update guess = some gp2) :
    gp.update_ref_spec guess = some gp2 := by
  rw [GameProgress.update] at hupd
  rw [GameProgress.update_ref_spec]
  have hnd : ((stepList guess).map Prod.fst).Nodup := by
    show Position.list.Nodup
    decide
  rw [List.append_assoc]
  rw [runSteps_phased T (stepList guess) gp hconf hcons hnd]
  exact hupd

namespace WordleHelper

/-- A round reporting the same letter Not-In-Word at the first position
and Wrong-Spot at the second. -/
def phaseGuess : WordGuess :=
  ⟨⟨'a', .NOT_IN_WORD⟩, ⟨'a', .WRONG_SPOT⟩, ⟨'b', .NOT_IN_WORD⟩,
    ⟨'c', .NOT_IN_WORD⟩, ⟨'d', .NOT_IN_WORD⟩⟩

end WordleHelper

open WordleHelper in
/-- C2 counterexample: on the round `phaseGuess` the single pass raises
(`KeyError`: the Not-In-Word step at the first position already removed
'a' from the second position's set before the Wrong-Spot step ran),
while the phased reference returns normally, so the two disagree at a
concrete state and round. -/
theorem c2_counterexample :
    GameProgress.init.update phaseGuess ≠
      GameProgress.init.update_ref_spec phaseGuess := by
  decide

open WordleHelper in
/-- Witness for C2 (amended) at a concrete consistent round. -/
theorem c2_witness :
    GameProgress.init.update_ref_spec notGuessZ = some zState :=
  c2_single_pass_refines_phased wordCrane GameProgress.init notGuessZ zState
    (by intro p m h; cases p <;> exact LetterOptions.noConfusion h)
    (by decide) (by decide)
